import Mathlib

/-!
Verification of the EIS data-handling core (`EIS.py`).

The Python source is shallowly embedded: strings are manipulated as `List Char`
(the inputs of interest are ASCII, so Python's Unicode-aware `str.isdigit`,
`str.strip`, `int()` coincide with the ASCII readings modelled here; Python's
`int()` additionally accepts underscore digit separators, which no behaviour
in this repository depends on), Python `set` is `Finset String`, `dict` is an
association list updated in place, pandas data frames are lists of rows, and
impedance values (floats in the source, never computed with) are modelled as
integers.  Fallible operations return `Option`/`Except`.
-/

namespace EIS

/-! ### Python string primitives (ASCII model) -/

/-- Characters removed by Python `str.strip()` (ASCII whitespace). -/
def pyIsSpace (c : Char) : Bool :=
  c == ' ' || c == '\t' || c == '\n' || c == '\r' || c == Char.ofNat 11 || c == Char.ofNat 12

/-- Python `str.strip()`: drop whitespace from both ends. -/
def pyStrip (cs : List Char) : List Char :=
  ((cs.dropWhile pyIsSpace).reverse.dropWhile pyIsSpace).reverse

/-- Python `str.split(sep)` for a one-character separator: split on every
occurrence, keeping empty pieces (`''.split(sep) = ['']`). -/
def pySplit (sep : Char) : List Char → List (List Char)
  | [] => [[]]
  | c :: rest =>
    if c = sep then [] :: pySplit sep rest
    else
      match pySplit sep rest with
      | [] => [[c]]
      | t :: ts => (c :: t) :: ts

/-- Python `str.rsplit(sep, 1)` for a one-character separator: `none` when the
separator does not occur, otherwise the parts before and after its last
occurrence. -/
def pyRsplit1 (sep : Char) (cs : List Char) : Option (List Char × List Char) :=
  if sep ∈ cs then
    let rev := cs.reverse
    some (((rev.dropWhile (fun c => c != sep)).drop 1).reverse,
          (rev.takeWhile (fun c => c != sep)).reverse)
  else none

/-- Python `str.isdigit()` on ASCII text: non-empty and all decimal digits. -/
def pyIsDigitL (cs : List Char) : Bool := !cs.isEmpty && cs.all Char.isDigit

/-- Numeric value of a decimal digit character. -/
def digitVal (c : Char) : Nat := c.toNat - '0'.toNat

/-- Value of a string of decimal digits. -/
def digitsVal (cs : List Char) : Nat := cs.foldl (fun n c => n * 10 + digitVal c) 0

/-- Python `int(s)` on ASCII text: strip whitespace, allow one sign, then a
non-empty run of decimal digits; anything else raises `ValueError` (`none`). -/
def pyIntL (cs : List Char) : Option Int :=
  match pyStrip cs with
  | '+' :: rest => if pyIsDigitL rest then some (digitsVal rest : Int) else none
  | '-' :: rest => if pyIsDigitL rest then some (-(digitsVal rest : Int)) else none
  | t => if pyIsDigitL t then some (digitsVal t : Int) else none

/-- Python `str(i)` for an integer. -/
def pyStr (i : Int) : String :=
  if i < 0 then "-" ++ Nat.repr i.natAbs else Nat.repr i.natAbs

/-- Python `range(s, e + 1)` as a list of integers (empty when `e < s`). -/
def intRange (s e : Int) : List Int :=
  (List.range (e + 1 - s).toNat).map fun k => s + Int.ofNat k

/-- `os.path.splitext(name)[0]`: the part before the last dot, except that a
name whose part before the last dot is all dots (e.g. `.bashrc`) is returned
unchanged. -/
def pySplitextStem (cs : List Char) : List Char :=
  match pyRsplit1 '.' cs with
  | none => cs
  | some (pre, _) => if pre.all (fun c => c == '.') then cs else pre

/-- `os.path.splitext` stem of a filename, as a `String`. -/
def fileStem (s : String) : String := String.mk (pySplitextStem s.data)

/-! ### `parse_search_string` (EIS.py lines 51-76) -/

/-- One iteration of the `for part in parts` loop of `parse_search_string`:
strip the token; skip it if empty; if it contains a hyphen, try to read exactly
two integers around the hyphen and add the whole inclusive range (bounds
swapped when reversed), skipping the token on any `ValueError`; otherwise add
the token itself when it `isdigit()`. -/
def partStep (ids : Finset String) (part0 : List Char) : Finset String :=
  let part := pyStrip part0
  if part.isEmpty then ids
  else if '-' ∈ part then
    match pySplit '-' part with
    | [a, b] =>
      match pyIntL a, pyIntL b with
      | some s, some e =>
        let se := if s > e then (e, s) else (s, e)
        (intRange se.1 se.2).foldl (fun acc i => insert (pyStr i) acc) ids
      | _, _ => ids
    | _ => ids
  else if pyIsDigitL part then insert (String.mk part) ids else ids

/-- `parse_search_string` (EIS.py 51-76): split the query on commas and fold
the per-token step over the pieces; an empty (falsy) query yields the empty
set. -/
def parse_search_string (q : String) : Finset String :=
  if q = "" then ∅
  else (pySplit ',' q.data).foldl partStep ∅

/-- The set of identifiers a single token contributes. -/
def tokenIds (part : List Char) : Finset String := partStep ∅ part

/-! ### `get_legend_name` (EIS.py lines 78-83) -/

/-- `get_legend_name` (EIS.py 78-83): `rsplit('_', 1)`; when the trailing part
is `'C'` followed by one or more digits, return the part before the final
underscore, otherwise the whole name. -/
def get_legend_name (s : String) : String :=
  match pyRsplit1 '_' s.data with
  | none => s
  | some (pre, post) =>
    match post with
    | 'C' :: ds => if !ds.isEmpty && ds.all Char.isDigit then String.mk pre else s
    | _ => s

/-! ### File ingestion (EIS.py lines 12-30)

A discovered file is modelled by its basename together with the outcome of
`pd.read_csv` on it: `Except.error` when reading raised (fewer than 64 lines,
undecodable, ...), otherwise the parsed table.  A table (`Df`) is modelled by
its column-header list and its data rows; each data row carries the values of
the `Re(Z)/Ohm` and `-Im(Z)/Ohm` columns, the only ones the program reads. -/

structure Df where
  cols : List String
  rows : List (Int × Int)
deriving DecidableEq, Repr

/-- The column check of EIS.py line 19:
`'Re(Z)/Ohm' in df.columns and '-Im(Z)/Ohm' in df.columns`. -/
def hasRequired (df : Df) : Bool :=
  df.cols.contains "Re(Z)/Ohm" && df.cols.contains "-Im(Z)/Ohm"

/-- Python `dict` assignment `d[k] = v`: replace in place when the key exists,
otherwise append. -/
def dictInsert (k : String) (v : Df) (d : List (String × Df)) : List (String × Df) :=
  if d.any (fun p => p.1 == k) then d.map (fun p => if p.1 == k then (k, v) else p)
  else d ++ [(k, v)]

/-- One iteration of the ingestion loop of EIS.py 16-27: a successfully
parsed table with both required columns is stored in `cell_data` under the
filename stem; otherwise the basename is appended to `failed_files`. -/
def ingestStep (acc : List (String × Df) × List String) (f : String × Except Unit Df) :
    List (String × Df) × List String :=
  match f.2 with
  | Except.ok df =>
      if hasRequired df then (dictInsert (fileStem f.1) df acc.1, acc.2)
      else (acc.1, acc.2 ++ [f.1])
  | Except.error _ => (acc.1, acc.2 ++ [f.1])

/-- The ingestion loop of EIS.py 16-27 over the discovered files; returns
`(cell_data, failed_files)`. -/
def ingest (files : List (String × Except Unit Df)) : List (String × Df) × List String :=
  files.foldl ingestStep ([], [])

/-! ### Largest-leading-id diagnostic (EIS.py lines 32-40) -/

/-- The key function of EIS.py line 36: `int(os.path.basename(p).split('_')[0])`.
Files are modelled by their basenames (the directory prefix `txt/` is constant
and stripped by `os.path.basename` everywhere it matters). -/
def fileKey (f : String) : Option Int := pyIntL ((pySplit '_' f.data).headD [])

/-- One comparison step of Python `max(..., key=...)`: evaluate the key of the
next element (propagating `ValueError` as `none`) and keep the earlier element
unless the new key is strictly larger. -/
def maxStep (best : String × Int) (g : String) : Option (String × Int) :=
  match fileKey g with
  | none => none
  | some kg => some (if best.2 < kg then (g, kg) else best)

/-- Python `max(files, key=...)`: evaluate the key of each element, keeping the
first element whose key is maximal; any `ValueError` from the key function (or
an empty list) propagates as `none`. -/
def pyMaxByKey : List String → Option String
  | [] => none
  | f :: rest =>
      match fileKey f with
      | none => none
      | some k => (rest.foldlM maxStep (f, k)).map Prod.fst

/-- `largest_file_message` (EIS.py 32-40): `"None"` when no file was found;
otherwise the stem of the file with the largest leading integer, except that a
`ValueError` from any filename (caught by the `except` around the whole `max`)
replaces the entire diagnostic with `"Could not parse filenames."`. -/
def largestFileMessage (files : List String) : String :=
  if files.isEmpty then "Largest Cell Number: None"
  else
    match pyMaxByKey files with
    | some p => "Largest Cell Number: " ++ String.mk (pySplitextStem p.data)
    | none => "Largest Cell Number: Could not parse filenames."

/-! ### Plot assembly (EIS.py lines 139-172) -/

/-- `cell.split('_')[0]`: the leading underscore-delimited token of a name. -/
def leadingToken (s : String) : String := String.mk ((pySplit '_' s.data).headD [])

/-- The in-memory index built by ingestion: cell name to measurement points. -/
abbrev CellIndex := List (String × List (Int × Int))

/-- EIS.py line 145: the cells whose leading token equals the identifier,
in index order. -/
def matchingCells (index : CellIndex) (expId : String) : CellIndex :=
  index.filter (fun c => leadingToken c.1 == expId)

/-- One trace added to the figure: legend group, full cell name, points. -/
structure PlotSeries where
  legendGroup : String
  cellName : String
  points : List (Int × Int)
deriving DecidableEq, Repr

/-- The trace-building loops of EIS.py 144-159: identifiers in sorted order,
then for each matching cell one series whose legend group is
`get_legend_name`. -/
def querySeries (ids : Finset String) (index : CellIndex) : List PlotSeries :=
  (ids.sort (· ≤ ·)).flatMap fun expId =>
    (matchingCells index expId).map fun c =>
      { legendGroup := get_legend_name c.1, cellName := c.1, points := c.2 }

/-- One row of the combined long table: the two impedance values plus the
`source_file` tag added at EIS.py line 158. -/
structure LongRow where
  re : Int
  nim : Int
  source : String
deriving DecidableEq, Repr

/-- The rows a single cell contributes to the long table. -/
def seriesRows (name : String) (pts : List (Int × Int)) : List LongRow :=
  pts.map fun p => { re := p.1, nim := p.2, source := name }

/-- A long table built from named series (`pd.concat(plotted_dfs)`): each
series' rows in order, tagged with the cell name. -/
def longTable (series : List (String × List (Int × Int))) : List LongRow :=
  series.flatMap fun s => seriesRows s.1 s.2

/-- The long table stored by `update_graph_and_store_data` (EIS.py 157-171). -/
def queryLongTable (ids : Finset String) (index : CellIndex) : List LongRow :=
  (querySeries ids index).flatMap fun s => seriesRows s.cellName s.points

/-! ### Wide pivot for export (EIS.py lines 180-199) -/

/-- Increment the sequence number of an annotated row when its source is `s`
(the effect one earlier row of source `s` has on the counts of later rows). -/
def bumpIf (s : String) (x : LongRow × Nat) : LongRow × Nat :=
  if x.1.source = s then (x.1, x.2 + 1) else x

/-- `df_long.groupby('source_file').cumcount()` (EIS.py 186): annotate each
row with the number of earlier rows carrying the same `source_file`. -/
def cumcount : List LongRow → List (LongRow × Nat)
  | [] => []
  | r :: rs => (r, 0) :: (cumcount rs).map (bumpIf r.source)

/-- The `(source_file, measurement_index)` keys of an annotated table; pandas
`pivot` raises `ValueError` when they contain duplicates. -/
def wideKeys (irows : List (LongRow × Nat)) : List (String × Nat) :=
  irows.map fun ri => (ri.1.source, ri.2)

/-- First-occurrence deduplication (pandas' set of distinct labels). -/
def uniqueKeep {α : Type} [DecidableEq α] : List α → List α
  | [] => []
  | a :: l => a :: (uniqueKeep l).filter (fun b => b != a)

/-- The `values=[...]` argument of the pivot (EIS.py 191), in source order. -/
def valueKinds : List String := ["Re(Z)/Ohm", "-Im(Z)/Ohm"]

/-- The distinct `source_file` labels of a long table. -/
def sourcesOf (rows : List LongRow) : List String :=
  uniqueKeep (rows.map fun r => r.source)

/-- The flattened column name `f'{val}_{col}'` of EIS.py line 194. -/
def compositeName (vc : String × String) : String := vc.1 ++ "_" ++ vc.2

/-- The pivoted columns `(valueKind, cellName)` after
`df_wide.reindex(sorted(df_wide.columns), axis=1)` (EIS.py 195): the product
of value kinds and distinct sources, sorted by flattened name.  (The sort
makes the pre-sort order irrelevant; pandas' own intermediate column order
differs but carries the same multiset of columns.) -/
def sortedCols (rows : List LongRow) : List (String × String) :=
  (valueKinds.flatMap fun v => (sourcesOf rows).map fun s => (v, s)).mergeSort
    fun a b => decide (compositeName a ≤ compositeName b)

/-- The wide cell for value kind `v`, source `s`, row index `i`: the `v` value
of the unique annotated row with key `(s, i)`, absent (`none`, pandas `NaN`)
when there is no such row. -/
def lookupCell (irows : List (LongRow × Nat)) (v s : String) (i : Nat) : Option Int :=
  (irows.find? fun ri => ri.1.source == s && ri.2 == i).map
    fun ri => if v == "Re(Z)/Ohm" then ri.1.re else ri.1.nim

/-- The row labels of the pivoted frame: the distinct `measurement_index`
values, ascending. -/
def rowIdxs (irows : List (LongRow × Nat)) : List Nat :=
  (uniqueKeep (irows.map Prod.snd)).mergeSort fun a b => decide (a ≤ b)

/-- The exported wide table: flattened column names and, for each row label,
one optional value per column (the row labels themselves are not written out,
`index=False`). -/
structure WideTable where
  colNames : List String
  rows : List (List (Option Int))
deriving DecidableEq, Repr

/-- The pivot construction of EIS.py 188-195 on an annotated table. -/
def mkWide (rows : List LongRow) : WideTable :=
  let irows := cumcount rows
  let cols := sortedCols rows
  { colNames := cols.map compositeName
    rows := (rowIdxs irows).map fun i => cols.map fun vc => lookupCell irows vc.1 vc.2 i }

/-- `download_data` (EIS.py 180-199) on a stored long table: pandas `pivot`
raises on duplicate `(index, columns)` pairs, modelled by `none`; otherwise
the wide table is produced. -/
def download_data (rows : List LongRow) : Option WideTable :=
  if (wideKeys (cumcount rows)).Nodup then some (mkWide rows) else none

/-- Access a wide-table cell by row index and column name (`none` for an
absent column or an unpopulated cell). -/
def WideTable.cell (w : WideTable) (i : Nat) (name : String) : Option Int :=
  match w.colNames.findIdx? (fun n => n == name) with
  | some j => (w.rows.getD i []).getD j none
  | none => none

/-- The length of the longest series in a list of named series. -/
def maxSeriesLen (series : List (String × List (Int × Int))) : Nat :=
  (series.map fun s => s.2.length).foldr max 0

/-! ### Helper notions used only in the verification -/

/-- Rejoin the pieces of a split with the separator (inverse of `pySplit`). -/
def joinSep (sep : Char) : List (List Char) → List Char
  | [] => []
  | [x] => x
  | x :: xs => x ++ sep :: joinSep sep xs

/-- The records ingestion stores: one per file that parsed and carries both
required columns, keyed by filename stem, in file order. -/
def goodRecords (files : List (String × Except Unit Df)) : List (String × Df) :=
  files.filterMap fun f =>
    match f.2 with
    | Except.ok df => if hasRequired df then some (fileStem f.1, df) else none
    | Except.error _ => none

/-- The filenames ingestion records as failed, in file order. -/
def badNames (files : List (String × Except Unit Df)) : List String :=
  files.filterMap fun f =>
    match f.2 with
    | Except.ok df => if hasRequired df then none else some f.1
    | Except.error _ => some f.1

/-- The annotated rows a single cell's block contributes to the pivot, with
sequence numbers starting at `a`. -/
def blockPairsFrom (name : String) (pts : List (Int × Int)) (a : Nat) :
    List (LongRow × Nat) :=
  (pts.zip (List.range' a pts.length)).map fun pk =>
    ({ re := pk.1.1, nim := pk.1.2, source := name }, pk.2)

/-! ### Lemmas about the string primitives -/

theorem pySplit_ne_nil (sep : Char) (cs : List Char) : pySplit sep cs ≠ [] := by
  cases cs with
  | nil => simp [pySplit]
  | cons c rest =>
    simp only [pySplit]
    split
    · simp
    · split <;> simp

theorem pySplit_not_mem (sep : Char) :
    ∀ (cs : List Char), ∀ p ∈ pySplit sep cs, sep ∉ p := by
  intro cs
  induction cs with
  | nil =>
    intro p hp
    simp only [pySplit, List.mem_singleton] at hp
    simp [hp]
  | cons c rest ih =>
    intro p hp
    simp only [pySplit] at hp
    split at hp
    · rcases List.mem_cons.mp hp with h | h
      · simp [h]
      · exact ih p h
    · rename_i hc
      rcases h : pySplit sep rest with _ | ⟨t, ts⟩
      · exact absurd h (pySplit_ne_nil sep rest)
      · rw [h] at hp
        rcases List.mem_cons.mp hp with h' | h'
        · subst h'
          intro hm
          rcases List.mem_cons.mp hm with h'' | h''
          · exact hc h''.symm
          · exact ih t (h ▸ List.mem_cons_self t ts) h''
        · exact ih p (h ▸ List.mem_cons_of_mem t h')

theorem pySplit_no_sep (sep : Char) :
    ∀ (cs : List Char), sep ∉ cs → pySplit sep cs = [cs] := by
  intro cs
  induction cs with
  | nil => intro; rfl
  | cons c rest ih =>
    intro h
    have hc : ¬c = sep := fun hc => h (hc ▸ List.mem_cons_self c rest)
    have hr : sep ∉ rest := fun hr => h (List.mem_cons_of_mem c hr)
    simp only [pySplit, if_neg hc, ih hr]

theorem pySplit_sep_cons (sep : Char) :
    ∀ (a rest : List Char), sep ∉ a →
      pySplit sep (a ++ sep :: rest) = a :: pySplit sep rest := by
  intro a
  induction a with
  | nil => intro rest _; simp [pySplit]
  | cons c a' ih =>
    intro rest h
    have hc : ¬c = sep := fun hc => h (hc ▸ List.mem_cons_self c a')
    have ha : sep ∉ a' := fun ha => h (List.mem_cons_of_mem c ha)
    simp only [List.cons_append, pySplit, if_neg hc, List.append_eq, ih rest ha]

theorem pyStrip_mem {c : Char} {cs : List Char} (h : c ∈ pyStrip cs) : c ∈ cs := by
  unfold pyStrip at h
  rw [List.mem_reverse] at h
  have h1 := (@List.dropWhile_sublist _ ((cs.dropWhile pyIsSpace).reverse) pyIsSpace).mem h
  rw [List.mem_reverse] at h1
  exact (@List.dropWhile_sublist _ cs pyIsSpace).mem h1

theorem pyIntL_nonneg {cs : List Char} {v : Int} (hc : '-' ∉ cs)
    (hv : pyIntL cs = some v) : 0 ≤ v := by
  have hsc : '-' ∉ pyStrip cs := fun h => hc (pyStrip_mem h)
  unfold pyIntL at hv
  split at hv
  · split at hv
    · simp only [Option.some.injEq] at hv
      omega
    · cases hv
  · rename_i rest heq
    exact absurd (heq ▸ List.mem_cons_self '-' rest) hsc
  · split at hv
    · simp only [Option.some.injEq] at hv
      omega
    · cases hv

/-! ### Structure of `parse_search_string` -/

theorem foldl_insert_union (l : List Int) (acc : Finset String) :
    l.foldl (fun a i => insert (pyStr i) a) acc = acc ∪ (l.map pyStr).toFinset := by
  induction l generalizing acc with
  | nil => simp
  | cons i l ih =>
    simp only [List.foldl_cons, ih, List.map_cons, List.toFinset_cons]
    ext x
    simp only [Finset.mem_union, Finset.mem_insert]
    tauto

theorem partStep_eq_union (ids : Finset String) (p : List Char) :
    partStep ids p = ids ∪ tokenIds p := by
  unfold tokenIds partStep
  by_cases h1 : (pyStrip p).isEmpty
  · simp [h1]
  · simp only [h1, Bool.false_eq_true, if_false]
    by_cases h2 : '-' ∈ pyStrip p
    · simp only [h2, if_true]
      rcases h3 : pySplit '-' (pyStrip p) with _ | ⟨a, _ | ⟨b, _ | _⟩⟩ <;> simp only []
      · simp
      · simp
      · rcases h4 : pyIntL a with _ | s <;> rcases h5 : pyIntL b with _ | e <;>
          simp only []
        · simp
        · simp
        · simp
        · rw [foldl_insert_union, foldl_insert_union, Finset.empty_union]
      · simp
    · simp only [h2, if_false]
      by_cases h6 : pyIsDigitL (pyStrip p)
      · simp only [h6, if_true]
        ext x
        simp only [Finset.mem_union, Finset.mem_insert, Finset.not_mem_empty]
        tauto
      · simp [h6]

theorem mem_foldl_partStep (parts : List (List Char)) (acc : Finset String) (x : String) :
    x ∈ parts.foldl partStep acc ↔ x ∈ acc ∨ ∃ t ∈ parts, x ∈ tokenIds t := by
  induction parts generalizing acc with
  | nil => simp
  | cons t ts ih =>
    simp only [List.foldl_cons, partStep_eq_union, ih, Finset.mem_union, List.mem_cons]
    constructor
    · rintro ((h | h) | ⟨u, hu, hx⟩)
      · exact Or.inl h
      · exact Or.inr ⟨t, Or.inl rfl, h⟩
      · exact Or.inr ⟨u, Or.inr hu, hx⟩
    · rintro (h | ⟨u, (rfl | hu), hx⟩)
      · exact Or.inl (Or.inl h)
      · exact Or.inl (Or.inr hx)
      · exact Or.inr ⟨u, hu, hx⟩

theorem mem_parse_search_string_iff (q x : String) :
    x ∈ parse_search_string q ↔ q ≠ "" ∧ ∃ t ∈ pySplit ',' q.data, x ∈ tokenIds t := by
  unfold parse_search_string
  by_cases h : q = ""
  · simp [h]
  · simp [h, mem_foldl_partStep]

/-! ### Per-token behaviour of the parser -/

theorem tokenIds_empty {p : List Char} (h : pyStrip p = []) : tokenIds p = ∅ := by
  simp [tokenIds, partStep, h]

theorem tokenIds_digits {p : List Char} (h : pyIsDigitL (pyStrip p) = true) :
    tokenIds p = {String.mk (pyStrip p)} := by
  have hall := (Bool.and_eq_true _ _).mp h
  have hne : (pyStrip p).isEmpty = false := by
    have h1 := hall.1
    cases hie : (pyStrip p).isEmpty
    · rfl
    · rw [hie] at h1
      simp at h1
  have hnc : '-' ∉ pyStrip p := by
    intro hm
    have := List.all_eq_true.mp hall.2 '-' hm
    simp [Char.isDigit] at this
  simp only [tokenIds, partStep]
  rw [if_neg (by simp [hne]), if_neg hnc, if_pos h]
  ext y
  simp

theorem tokenIds_range {p a b : List Char} {s e : Int}
    (hsplit : pyStrip p = a ++ '-' :: b) (ha : '-' ∉ a) (hb : '-' ∉ b)
    (hs : pyIntL a = some s) (he : pyIntL b = some e) :
    tokenIds p = ((intRange (min s e) (max s e)).map pyStr).toFinset := by
  have hmem : '-' ∈ pyStrip p := by
    rw [hsplit]
    exact List.mem_append_right a (List.mem_cons_self _ _)
  have hne : (pyStrip p).isEmpty = false := by
    rcases h : pyStrip p with _ | _
    · rw [h] at hmem; cases hmem
    · rfl
  have hsplit2 : pySplit '-' (pyStrip p) = [a, b] := by
    rw [hsplit, pySplit_sep_cons '-' a b ha, pySplit_no_sep '-' b hb]
  simp only [tokenIds, partStep, hne, Bool.false_eq_true, if_false, hmem, if_true,
    hsplit2, hs, he]
  rcases lt_trichotomy s e with hlt | heq | hgt
  · rw [if_neg (not_lt.mpr hlt.le), foldl_insert_union, Finset.empty_union,
      min_eq_left hlt.le, max_eq_right hlt.le]
  · subst heq
    simp only [gt_iff_lt, lt_irrefl, if_false]
    rw [foldl_insert_union, Finset.empty_union, min_self, max_self]
  · rw [if_pos hgt, foldl_insert_union, Finset.empty_union,
      min_eq_right hgt.le, max_eq_left hgt.le]

theorem tokenIds_hyphen_bad_pieces {p : List Char} (hmem : '-' ∈ pyStrip p)
    (hsplit : ∀ a b, pySplit '-' (pyStrip p) ≠ [a, b]) : tokenIds p = ∅ := by
  have hne : (pyStrip p).isEmpty = false := by
    rcases h : pyStrip p with _ | _
    · rw [h] at hmem; cases hmem
    · rfl
  simp only [tokenIds, partStep, hne, Bool.false_eq_true, if_false, hmem, if_true]

theorem tokenIds_hyphen_bad_int {p a b : List Char} (hmem : '-' ∈ pyStrip p)
    (hsplit : pySplit '-' (pyStrip p) = [a, b])
    (hint : pyIntL a = none ∨ pyIntL b = none) : tokenIds p = ∅ := by
  have hne : (pyStrip p).isEmpty = false := by
    rcases h : pyStrip p with _ | _
    · rw [h] at hmem; cases hmem
    · rfl
  simp only [tokenIds, partStep, hne, Bool.false_eq_true, if_false, hmem, if_true, hsplit]
  rcases h4 : pyIntL a with _ | s <;> rcases h5 : pyIntL b with _ | e <;> simp only []
  rw [h4, h5] at hint
  rcases hint with h | h <;> cases h

theorem tokenIds_plain_nondigit {p : List Char} (hne : pyStrip p ≠ [])
    (hnc : '-' ∉ pyStrip p) (hnd : pyIsDigitL (pyStrip p) = false) : tokenIds p = ∅ := by
  have hne' : (pyStrip p).isEmpty = false := by
    rcases h : pyStrip p with _ | _
    · exact absurd h hne
    · rfl
  simp [tokenIds, partStep, hne', hnc, hnd]

theorem tokenIds_hyphen_ints {p a b : List Char} {s e : Int} (hmem : '-' ∈ pyStrip p)
    (hsplit : pySplit '-' (pyStrip p) = [a, b])
    (hs : pyIntL a = some s) (he : pyIntL b = some e) :
    tokenIds p = ((intRange (min s e) (max s e)).map pyStr).toFinset := by
  have hne : (pyStrip p).isEmpty = false := by
    rcases h : pyStrip p with _ | _
    · rw [h] at hmem; cases hmem
    · rfl
  simp only [tokenIds, partStep, hne, Bool.false_eq_true, if_false, hmem, if_true,
    hsplit, hs, he]
  rcases lt_trichotomy s e with hlt | heq | hgt
  · rw [if_neg (not_lt.mpr hlt.le), foldl_insert_union, Finset.empty_union,
      min_eq_left hlt.le, max_eq_right hlt.le]
  · subst heq
    simp only [gt_iff_lt, lt_irrefl, if_false]
    rw [foldl_insert_union, Finset.empty_union, min_self, max_self]
  · rw [if_pos hgt, foldl_insert_union, Finset.empty_union,
      min_eq_right hgt.le, max_eq_left hgt.le]

theorem intRange_nonneg {s e i : Int} (hs : 0 ≤ s) (hi : i ∈ intRange s e) : 0 ≤ i := by
  unfold intRange at hi
  rcases List.mem_map.mp hi with ⟨k, _, rfl⟩
  simp only [Int.ofNat_eq_natCast]
  omega

theorem pyStr_nonneg {i : Int} (h : 0 ≤ i) : pyStr i = Nat.repr i.toNat := by
  unfold pyStr
  rw [if_neg (not_lt.mpr h)]
  congr 1
  omega

/-- Every identifier the parser emits is either the canonical decimal
rendering of a natural number (range tokens) or the stripped token itself,
kept verbatim (single digit-string tokens). -/
theorem mem_tokenIds_shape {p : List Char} {x : String} (hx : x ∈ tokenIds p) :
    (∃ n : Nat, x = Nat.repr n) ∨
      (x = String.mk (pyStrip p) ∧ pyIsDigitL (pyStrip p) = true) := by
  by_cases h1 : pyStrip p = []
  · rw [tokenIds_empty h1] at hx
    exact absurd hx (Finset.not_mem_empty x)
  by_cases h2 : '-' ∈ pyStrip p
  · rcases h3 : pySplit '-' (pyStrip p) with _ | ⟨a, _ | ⟨b, _ | ⟨c, l⟩⟩⟩
    · rw [tokenIds_hyphen_bad_pieces h2 (fun a b hab => by rw [h3] at hab; cases hab)] at hx
      exact absurd hx (Finset.not_mem_empty x)
    · rw [tokenIds_hyphen_bad_pieces h2 (fun a' b' hab => by rw [h3] at hab; cases hab)] at hx
      exact absurd hx (Finset.not_mem_empty x)
    · rcases h4 : pyIntL a with _ | s
      · rw [tokenIds_hyphen_bad_int h2 h3 (Or.inl h4)] at hx
        exact absurd hx (Finset.not_mem_empty x)
      rcases h5 : pyIntL b with _ | e
      · rw [tokenIds_hyphen_bad_int h2 h3 (Or.inr h5)] at hx
        exact absurd hx (Finset.not_mem_empty x)
      rw [tokenIds_hyphen_ints h2 h3 h4 h5] at hx
      rcases List.mem_map.mp (List.mem_toFinset.mp hx) with ⟨i, hi, rfl⟩
      have hna : '-' ∉ a :=
        pySplit_not_mem '-' (pyStrip p) a (h3 ▸ List.mem_cons_self a [b])
      have hs0 : 0 ≤ s := pyIntL_nonneg hna h4
      have hnb : '-' ∉ b :=
        pySplit_not_mem '-' (pyStrip p) b (h3 ▸ List.mem_cons_of_mem a (List.mem_cons_self b []))
      have he0 : 0 ≤ e := pyIntL_nonneg hnb h5
      have hi0 : 0 ≤ i := intRange_nonneg (le_min hs0 he0) hi
      exact Or.inl ⟨i.toNat, pyStr_nonneg hi0⟩
    · rw [tokenIds_hyphen_bad_pieces h2 (fun a' b' hab => by
        rw [h3] at hab
        simp at hab)] at hx
      exact absurd hx (Finset.not_mem_empty x)
  · by_cases h6 : pyIsDigitL (pyStrip p)
    · rw [tokenIds_digits h6] at hx
      exact Or.inr ⟨Finset.mem_singleton.mp hx, h6⟩
    · rw [tokenIds_plain_nondigit h1 h2 (Bool.not_eq_true _ ▸ eq_false_of_ne_true h6)] at hx
      exact absurd hx (Finset.not_mem_empty x)

/-! ### `pyRsplit1` and `get_legend_name` -/

theorem takeWhile_all_cons_of_neg {p : Char → Bool} :
    ∀ (l₁ : List Char) (y : Char) (l₂ : List Char), (∀ x ∈ l₁, p x = true) → p y = false →
      (l₁ ++ y :: l₂).takeWhile p = l₁ ∧ (l₁ ++ y :: l₂).dropWhile p = y :: l₂ := by
  intro l₁
  induction l₁ with
  | nil =>
    intro y l₂ _ hy
    constructor
    · simp [List.takeWhile_cons, hy]
    · simp [List.dropWhile_cons, hy]
  | cons a l ih =>
    intro y l₂ hall hy
    have ha : p a = true := hall a (List.mem_cons_self a l)
    have hrest := ih y l₂ (fun x hx => hall x (List.mem_cons_of_mem a hx)) hy
    constructor
    · simp [List.takeWhile_cons, ha, hrest.1]
    · simp [List.dropWhile_cons, ha, hrest.2]

theorem pyRsplit1_none {sep : Char} {cs : List Char} (h : sep ∉ cs) :
    pyRsplit1 sep cs = none := by
  simp [pyRsplit1, h]

theorem pyRsplit1_of_decomp {sep : Char} (pre post : List Char) (h : sep ∉ post) :
    pyRsplit1 sep (pre ++ sep :: post) = some (pre, post) := by
  have hmem : sep ∈ pre ++ sep :: post :=
    List.mem_append_right pre (List.mem_cons_self sep post)
  have hrev : (pre ++ sep :: post).reverse = post.reverse ++ sep :: pre.reverse := by
    rw [List.reverse_append, List.reverse_cons, List.append_assoc, List.singleton_append]
  have hall : ∀ x ∈ post.reverse, (x != sep) = true := by
    intro x hx
    rw [List.mem_reverse] at hx
    simp only [bne_iff_ne, ne_eq]
    exact fun hxs => h (hxs ▸ hx)
  have hsep : (sep != sep) = false := by simp
  have htd := takeWhile_all_cons_of_neg post.reverse sep pre.reverse hall hsep
  unfold pyRsplit1
  rw [if_pos hmem]
  simp only [hrev, htd.1, htd.2, List.drop_succ_cons, List.drop_zero, List.reverse_reverse]

theorem exists_last_sep {sep : Char} :
    ∀ {cs : List Char}, sep ∈ cs → ∃ pre post, cs = pre ++ sep :: post ∧ sep ∉ post := by
  intro cs
  induction cs with
  | nil => intro h; cases h
  | cons c rest ih =>
    intro h
    by_cases hr : sep ∈ rest
    · obtain ⟨pre, post, rfl, hpost⟩ := ih hr
      exact ⟨c :: pre, post, rfl, hpost⟩
    · have hc : c = sep := by
        rcases List.mem_cons.mp h with h' | h'
        · exact h'.symm
        · exact absurd h' hr
      exact ⟨[], rest, by simp [hc], hr⟩

theorem pyRsplit1_eq_some {sep : Char} {cs : List Char} (h : sep ∈ cs) :
    ∃ pre post, cs = pre ++ sep :: post ∧ sep ∉ post ∧
      pyRsplit1 sep cs = some (pre, post) := by
  obtain ⟨pre, post, rfl, hpost⟩ := exists_last_sep h
  exact ⟨pre, post, rfl, hpost, pyRsplit1_of_decomp pre post hpost⟩

theorem get_legend_name_strip (pre ds : List Char) (hne : ds ≠ [])
    (hd : ds.all Char.isDigit = true) :
    get_legend_name (String.mk (pre ++ '_' :: 'C' :: ds)) = String.mk pre := by
  have hnp : '_' ∉ 'C' :: ds := by
    intro hm
    rcases List.mem_cons.mp hm with h' | h'
    · cases h'
    · have := List.all_eq_true.mp hd '_' h'
      simp [Char.isDigit] at this
  have hdata : (String.mk (pre ++ '_' :: 'C' :: ds)).data = pre ++ '_' :: 'C' :: ds := rfl
  unfold get_legend_name
  rw [hdata, pyRsplit1_of_decomp pre ('C' :: ds) hnp]
  simp only []
  rw [if_pos]
  rw [Bool.and_eq_true, Bool.not_eq_true']
  exact ⟨by simpa using hne, hd⟩

theorem get_legend_name_cases (s : String) :
    get_legend_name s = s ∨
      ∃ pre ds, s.data = pre ++ '_' :: 'C' :: ds ∧ ds ≠ [] ∧ ds.all Char.isDigit = true ∧
        get_legend_name s = String.mk pre := by
  by_cases h : '_' ∈ s.data
  · obtain ⟨pre, post, hdec, hpost, hr⟩ := pyRsplit1_eq_some h
    rcases hps : post with _ | ⟨c, ds⟩
    · left
      unfold get_legend_name
      rw [hr, hps]
    · by_cases hc : c = 'C'
      · subst hc
        by_cases hcond : (!ds.isEmpty && ds.all Char.isDigit) = true
        · right
          have hcond' := (Bool.and_eq_true _ _).mp hcond
          refine ⟨pre, ds, by rw [hdec, hps], ?_, hcond'.2, ?_⟩
          · intro hnil
            rw [hnil] at hcond'
            simp at hcond'
          · unfold get_legend_name
            rw [hr, hps]
            simp only []
            rw [if_pos hcond]
        · left
          unfold get_legend_name
          rw [hr, hps]
          simp only []
          rw [if_neg hcond]
      · left
        unfold get_legend_name
        rw [hr, hps]
        simp only []
        split
        · rename_i heq
          injection heq with h1 _
          exact absurd h1 hc
        · rfl
  · left
    unfold get_legend_name
    rw [pyRsplit1_none h]

/-! ### Structure of ingestion -/

theorem dictInsert_fresh (k : String) (v : Df) (d : List (String × Df))
    (h : k ∉ d.map Prod.fst) : dictInsert k v d = d ++ [(k, v)] := by
  unfold dictInsert
  rw [if_neg]
  simp only [List.any_eq_true, beq_iff_eq, not_exists, not_and]
  intro p hp hpk
  exact h (List.mem_map.mpr ⟨p, hp, hpk⟩)

theorem dictInsert_forall {P : Df → Prop} {k : String} {v : Df} {d : List (String × Df)}
    (hd : ∀ p ∈ d, P p.2) (hv : P v) : ∀ p ∈ dictInsert k v d, P p.2 := by
  intro p hp
  unfold dictInsert at hp
  split at hp
  · rcases List.mem_map.mp hp with ⟨q, hq, hqp⟩
    by_cases hqk : (q.1 == k) = true
    · rw [if_pos hqk] at hqp
      rw [← hqp]
      exact hv
    · rw [if_neg hqk] at hqp
      rw [← hqp]
      exact hd q hq
  · rcases List.mem_append.mp hp with h' | h'
    · exact hd p h'
    · rw [List.mem_singleton.mp h']
      exact hv

theorem ingest_foldl_required :
    ∀ (files : List (String × Except Unit Df)) (acc : List (String × Df) × List String),
      (∀ p ∈ acc.1, hasRequired p.2 = true) →
      ∀ p ∈ (files.foldl ingestStep acc).1, hasRequired p.2 = true := by
  intro files
  induction files with
  | nil => intro acc hacc; exact hacc
  | cons f rest ih =>
    intro acc hacc
    rw [List.foldl_cons]
    apply ih
    unfold ingestStep
    rcases f.2 with _ | df
    · exact hacc
    · simp only []
      by_cases hreq : hasRequired df = true
      · rw [if_pos hreq]
        exact @dictInsert_forall (fun d => hasRequired d = true) _ _ _ hacc hreq
      · rw [if_neg hreq]
        exact hacc

theorem ingest_foldl_eq :
    ∀ (files : List (String × Except Unit Df)) (acc : List (String × Df) × List String),
      (∀ f ∈ files, fileStem f.1 ∉ acc.1.map Prod.fst) →
      (files.map fun f => fileStem f.1).Nodup →
      files.foldl ingestStep acc = (acc.1 ++ goodRecords files, acc.2 ++ badNames files) := by
  intro files
  induction files with
  | nil => intro acc _ _; simp [goodRecords, badNames]
  | cons f rest ih =>
    intro acc hfresh hnd
    rw [List.map_cons, List.nodup_cons] at hnd
    rw [List.foldl_cons]
    rcases hf2 : f.2 with e | df
    · have hstep : ingestStep acc f = (acc.1, acc.2 ++ [f.1]) := by
        unfold ingestStep
        rw [hf2]
      rw [hstep, ih (acc.1, acc.2 ++ [f.1])
        (fun g hg => hfresh g (List.mem_cons_of_mem f hg)) hnd.2]
      simp only [goodRecords, badNames, List.filterMap_cons, hf2, List.append_assoc,
        List.singleton_append]
    · by_cases hreq : hasRequired df = true
      · have hstep : ingestStep acc f = (acc.1 ++ [(fileStem f.1, df)], acc.2) := by
          unfold ingestStep
          rw [hf2]
          simp only []
          rw [if_pos hreq, dictInsert_fresh _ _ _ (hfresh f (List.mem_cons_self f rest))]
        have hfresh2 : ∀ g ∈ rest,
            fileStem g.1 ∉ (acc.1 ++ [(fileStem f.1, df)]).map Prod.fst := by
          intro g hg hmem
          rw [List.map_append] at hmem
          rcases List.mem_append.mp hmem with h' | h'
          · exact hfresh g (List.mem_cons_of_mem f hg) h'
          · simp only [List.map_cons, List.map_nil, List.mem_singleton] at h'
            exact hnd.1 (List.mem_map.mpr ⟨g, hg, h'⟩)
        rw [hstep, ih (acc.1 ++ [(fileStem f.1, df)], acc.2) hfresh2 hnd.2]
        simp only [goodRecords, badNames, List.filterMap_cons, hf2, if_pos hreq,
          List.append_assoc, List.singleton_append]
      · have hstep : ingestStep acc f = (acc.1, acc.2 ++ [f.1]) := by
          unfold ingestStep
          rw [hf2]
          simp only []
          rw [if_neg hreq]
        rw [hstep, ih (acc.1, acc.2 ++ [f.1])
          (fun g hg => hfresh g (List.mem_cons_of_mem f hg)) hnd.2]
        simp only [goodRecords, badNames, List.filterMap_cons, hf2, if_neg hreq,
          List.append_assoc, List.singleton_append]

theorem ingest_eq (files : List (String × Except Unit Df))
    (hnd : (files.map fun f => fileStem f.1).Nodup) :
    ingest files = (goodRecords files, badNames files) := by
  have h := ingest_foldl_eq files ([], []) (by simp) hnd
  simpa [ingest] using h

/-! ### The largest-leading-id diagnostic -/

theorem foldlM_maxStep_none :
    ∀ (rest : List String) (acc : String × Int), (∃ g ∈ rest, fileKey g = none) →
      rest.foldlM maxStep acc = none := by
  intro rest
  induction rest with
  | nil => intro acc h; rcases h with ⟨g, hg, _⟩; cases hg
  | cons g rest ih =>
    intro acc h
    rw [List.foldlM_cons]
    rcases hk : fileKey g with _ | kg
    · simp [maxStep, hk]
    · have hstep : maxStep acc g = some (if acc.2 < kg then (g, kg) else acc) := by
        simp [maxStep, hk]
      rw [hstep]
      simp only [Option.bind_eq_bind, Option.some_bind]
      apply ih
      rcases h with ⟨g', hg', hg'none⟩
      rcases List.mem_cons.mp hg' with rfl | hmem
      · rw [hk] at hg'none; cases hg'none
      · exact ⟨g', hmem, hg'none⟩

theorem foldlM_maxStep_some :
    ∀ (rest : List String) (acc : String × Int),
      (∀ g ∈ rest, (fileKey g).isSome = true) → fileKey acc.1 = some acc.2 →
      ∃ r : String × Int, rest.foldlM maxStep acc = some r ∧ fileKey r.1 = some r.2 ∧
        (r = acc ∨ r.1 ∈ rest) ∧ acc.2 ≤ r.2 ∧
        ∀ g ∈ rest, ∀ kg, fileKey g = some kg → kg ≤ r.2 := by
  intro rest
  induction rest with
  | nil =>
    intro acc _ hacc
    exact ⟨acc, rfl, hacc, Or.inl rfl, le_refl _, by intro g hg; cases hg⟩
  | cons g rest ih =>
    intro acc hall hacc
    rcases Option.isSome_iff_exists.mp (hall g (List.mem_cons_self g rest)) with ⟨kg, hkg⟩
    have hstep : maxStep acc g = some (if acc.2 < kg then (g, kg) else acc) := by
      simp [maxStep, hkg]
    rw [List.foldlM_cons, hstep]
    simp only [Option.bind_eq_bind, Option.some_bind]
    set acc' := if acc.2 < kg then (g, kg) else acc with hacc'
    have hacc'key : fileKey acc'.1 = some acc'.2 := by
      rw [hacc']
      split
      · exact hkg
      · exact hacc
    have hacc'le : acc.2 ≤ acc'.2 := by
      rw [hacc']
      split
      · rename_i hlt; exact le_of_lt hlt
      · exact le_refl _
    have hkgle : kg ≤ acc'.2 := by
      rw [hacc']
      split
      · exact le_refl _
      · rename_i hnlt; exact le_of_not_lt hnlt
    obtain ⟨r, hr, hrkey, hrmem, hrle, hrmax⟩ :=
      ih acc' (fun g' hg' => hall g' (List.mem_cons_of_mem g hg')) hacc'key
    refine ⟨r, hr, hrkey, ?_, le_trans hacc'le hrle, ?_⟩
    · rcases hrmem with rfl | hmem
      · rw [hacc']
        split
        · exact Or.inr (List.mem_cons_self g rest)
        · exact Or.inl rfl
      · exact Or.inr (List.mem_cons_of_mem g hmem)
    · intro g' hg' kg' hkg'
      rcases List.mem_cons.mp hg' with rfl | hmem
      · rw [hkg] at hkg'
        injection hkg' with h'
        exact h' ▸ le_trans hkgle hrle
      · exact hrmax g' hmem kg' hkg'

theorem pyMaxByKey_none {files : List String} (h : ∃ f ∈ files, fileKey f = none) :
    pyMaxByKey files = none := by
  rcases files with _ | ⟨f, rest⟩
  · rfl
  · unfold pyMaxByKey
    simp only []
    rcases hk : fileKey f with _ | k
    · rfl
    · simp only []
      rcases h with ⟨g, hg, hgnone⟩
      rcases List.mem_cons.mp hg with rfl | hmem
      · rw [hk] at hgnone; cases hgnone
      · rw [foldlM_maxStep_none rest (f, k) ⟨g, hmem, hgnone⟩]
        rfl

theorem pyMaxByKey_some {files : List String} (hne : files ≠ [])
    (h : ∀ f ∈ files, (fileKey f).isSome = true) :
    ∃ best, pyMaxByKey files = some best ∧ best ∈ files ∧
      ∃ k, fileKey best = some k ∧ ∀ g ∈ files, ∀ kg, fileKey g = some kg → kg ≤ k := by
  rcases files with _ | ⟨f, rest⟩
  · exact absurd rfl hne
  · rcases Option.isSome_iff_exists.mp (h f (List.mem_cons_self f rest)) with ⟨k, hk⟩
    obtain ⟨r, hr, hrkey, hrmem, hrle, hrmax⟩ := foldlM_maxStep_some rest (f, k)
      (fun g hg => h g (List.mem_cons_of_mem f hg)) hk
    refine ⟨r.1, ?_, ?_, r.2, hrkey, ?_⟩
    · unfold pyMaxByKey
      simp only []
      rw [hk]
      simp only []
      rw [hr]
      rfl
    · rcases hrmem with rfl | hmem
      · exact List.mem_cons_self f rest
      · exact List.mem_cons_of_mem f hmem
    · intro g hg kg hkg
      rcases List.mem_cons.mp hg with rfl | hmem
      · rw [hk] at hkg
        injection hkg with h'
        exact h' ▸ hrle
      · exact hrmax g hmem kg hkg

/-! ### Plot assembly -/

theorem mem_querySeries_names (ids : Finset String) (index : CellIndex) (name : String) :
    name ∈ (querySeries ids index).map PlotSeries.cellName ↔
      leadingToken name ∈ ids ∧ name ∈ index.map Prod.fst := by
  unfold querySeries matchingCells
  rw [List.map_flatMap]
  constructor
  · intro h
    rcases List.mem_flatMap.mp h with ⟨expId, hid, hmem⟩
    rw [List.map_map] at hmem
    rcases List.mem_map.mp hmem with ⟨c, hc, rfl⟩
    rcases List.mem_filter.mp hc with ⟨hcmem, hpred⟩
    have hlt : leadingToken c.1 = expId := by
      exact beq_iff_eq.mp hpred
    constructor
    · rw [show (PlotSeries.cellName ∘ fun c : String × List (Int × Int) =>
        { legendGroup := get_legend_name c.1, cellName := c.1, points := c.2 }) c = c.1
        from rfl]
      rw [show leadingToken c.1 = expId from hlt]
      exact (Finset.mem_sort _).mp hid
    · exact List.mem_map.mpr ⟨c, hcmem, rfl⟩
  · rintro ⟨hid, hname⟩
    rcases List.mem_map.mp hname with ⟨c, hc, rfl⟩
    apply List.mem_flatMap.mpr
    refine ⟨leadingToken c.1, (Finset.mem_sort _).mpr hid, ?_⟩
    rw [List.map_map]
    exact List.mem_map.mpr ⟨c, List.mem_filter.mpr ⟨hc, beq_iff_eq.mpr rfl⟩, rfl⟩

theorem querySeries_names_nodup (ids : Finset String) (index : CellIndex)
    (h : (index.map Prod.fst).Nodup) :
    ((querySeries ids index).map PlotSeries.cellName).Nodup := by
  unfold querySeries matchingCells
  rw [List.map_flatMap]
  apply List.nodup_flatMap.mpr
  constructor
  · intro expId _
    rw [List.map_map]
    have hsub : (index.filter fun c => leadingToken c.1 == expId).Sublist index :=
      List.filter_sublist index
    exact (hsub.map Prod.fst).nodup h
  · apply List.Pairwise.imp ?_ (Finset.sort_nodup (· ≤ ·) ids)
    intro id₁ id₂ hne
    intro x hx₁ hx₂
    simp only [List.map_map] at hx₁ hx₂
    rcases List.mem_map.mp hx₁ with ⟨c₁, hc₁, rfl⟩
    rcases List.mem_map.mp hx₂ with ⟨c₂, hc₂, heq⟩
    have h₁ : leadingToken c₁.1 = id₁ := beq_iff_eq.mp (List.mem_filter.mp hc₁).2
    have h₂ : leadingToken c₂.1 = id₂ := beq_iff_eq.mp (List.mem_filter.mp hc₂).2
    have hcc : c₂.1 = c₁.1 := heq
    exact hne (h₁ ▸ h₂ ▸ hcc ▸ rfl)

theorem wideKeys_cumcount_nodup : ∀ rows : List LongRow, (wideKeys (cumcount rows)).Nodup := by
  intro rows
  induction rows with
  | nil => simp [cumcount, wideKeys]
  | cons r rs ih =>
    rw [show cumcount (r :: rs) = (r, 0) :: (cumcount rs).map (bumpIf r.source) from rfl]
    unfold wideKeys
    rw [List.map_cons, List.nodup_cons, List.map_map]
    have hmaps : ((cumcount rs).map
        (((fun ri : LongRow × Nat => (ri.1.source, ri.2))) ∘ bumpIf r.source)) =
        (wideKeys (cumcount rs)).map
          (fun k => if k.1 = r.source then (k.1, k.2 + 1) else k) := by
      unfold wideKeys
      rw [List.map_map]
      apply List.map_congr_left
      intro x _
      by_cases hx : x.1.source = r.source <;> simp [bumpIf, hx]
    constructor
    · intro hmem
      rw [hmaps] at hmem
      rcases List.mem_map.mp hmem with ⟨k, _, heq⟩
      by_cases hk : k.1 = r.source
      · rw [if_pos hk] at heq
        have : k.2 + 1 = 0 := congrArg Prod.snd heq
        cases this
      · rw [if_neg hk] at heq
        exact hk (congrArg Prod.fst heq)
    · rw [hmaps]
      apply List.Nodup.map ?_ ih
      intro k₁ k₂ hkk
      simp only [] at hkk
      by_cases h₁ : k₁.1 = r.source <;> by_cases h₂ : k₂.1 = r.source
      · rw [if_pos h₁, if_pos h₂, Prod.mk.injEq] at hkk
        exact Prod.ext_iff.mpr ⟨hkk.1, Nat.succ_injective hkk.2⟩
      · rw [if_pos h₁, if_neg h₂] at hkk
        have hf : k₁.1 = k₂.1 := (Prod.ext_iff.mp hkk).1
        exact absurd (hf ▸ h₁) h₂
      · rw [if_neg h₁, if_pos h₂] at hkk
        have hf : k₁.1 = k₂.1 := (Prod.ext_iff.mp hkk).1
        exact absurd (hf.symm ▸ h₂) h₁
      · rw [if_neg h₁, if_neg h₂] at hkk
        exact hkk

theorem download_data_isSome (rows : List LongRow) : (download_data rows).isSome = true := by
  unfold download_data
  rw [if_pos (wideKeys_cumcount_nodup rows)]
  rfl

/-! ### Cumulative counting over block-structured long tables -/

theorem cumcount_fst : ∀ rows : List LongRow, (cumcount rows).map Prod.fst = rows := by
  intro rows
  induction rows with
  | nil => rfl
  | cons r rs ih =>
    rw [show cumcount (r :: rs) = (r, 0) :: (cumcount rs).map (bumpIf r.source) from rfl,
      List.map_cons, List.map_map]
    congr 1
    calc (cumcount rs).map (Prod.fst ∘ bumpIf r.source)
        = (cumcount rs).map Prod.fst :=
          List.map_congr_left fun x _ => by
            by_cases hx : x.1.source = r.source <;> simp [bumpIf, hx]
      _ = rs := ih

theorem cumcount_mem_fst {rows : List LongRow} {x : LongRow × Nat}
    (hx : x ∈ cumcount rows) : x.1 ∈ rows := by
  rw [← cumcount_fst rows]
  exact List.mem_map_of_mem Prod.fst hx

theorem blockPairsFrom_cons (name : String) (p : Int × Int) (pts : List (Int × Int))
    (a : Nat) :
    blockPairsFrom name (p :: pts) a =
      ({ re := p.1, nim := p.2, source := name }, a) :: blockPairsFrom name pts (a + 1) := by
  unfold blockPairsFrom
  rw [List.length_cons, List.range'_succ, List.zip_cons_cons, List.map_cons]

theorem map_bumpIf_blockPairsFrom (name : String) :
    ∀ (pts : List (Int × Int)) (a : Nat),
      (blockPairsFrom name pts a).map (bumpIf name) = blockPairsFrom name pts (a + 1) := by
  intro pts
  induction pts with
  | nil => intro a; rfl
  | cons p pts ih =>
    intro a
    rw [blockPairsFrom_cons, blockPairsFrom_cons, List.map_cons, ih (a + 1)]
    congr 1
    simp [bumpIf]

theorem map_bumpIf_id {name : String} {l : List (LongRow × Nat)}
    (h : ∀ x ∈ l, x.1.source ≠ name) : l.map (bumpIf name) = l := by
  calc l.map (bumpIf name)
      = l.map id := List.map_congr_left fun x hx => by simp [bumpIf, h x hx]
    _ = l := List.map_id l

theorem cumcount_block_append (name : String) :
    ∀ (pts : List (Int × Int)) (L : List LongRow), (∀ r ∈ L, r.source ≠ name) →
      cumcount (seriesRows name pts ++ L) = blockPairsFrom name pts 0 ++ cumcount L := by
  intro pts
  induction pts with
  | nil => intro L _; rfl
  | cons p pts ih =>
    intro L hL
    rw [show seriesRows name (p :: pts) =
      { re := p.1, nim := p.2, source := name } :: seriesRows name pts from rfl,
      List.cons_append,
      show cumcount ({ re := p.1, nim := p.2, source := name } :: (seriesRows name pts ++ L)) =
        ({ re := p.1, nim := p.2, source := name }, 0) ::
          (cumcount (seriesRows name pts ++ L)).map (bumpIf name) from rfl,
      ih L hL, List.map_append, map_bumpIf_blockPairsFrom,
      map_bumpIf_id (fun x hx => hL x.1 (cumcount_mem_fst hx)), blockPairsFrom_cons,
      List.cons_append]

theorem longTable_source {series : List (String × List (Int × Int))} {r : LongRow}
    (hr : r ∈ longTable series) : r.source ∈ series.map Prod.fst := by
  unfold longTable at hr
  rcases List.mem_flatMap.mp hr with ⟨s, hs, hrs⟩
  unfold seriesRows at hrs
  rcases List.mem_map.mp hrs with ⟨p, _, rfl⟩
  exact List.mem_map.mpr ⟨s, hs, rfl⟩

theorem cumcount_longTable {series : List (String × List (Int × Int))}
    (hnd : (series.map Prod.fst).Nodup) :
    cumcount (longTable series) = series.flatMap fun s => blockPairsFrom s.1 s.2 0 := by
  induction series with
  | nil => rfl
  | cons s rest ih =>
    rw [List.map_cons, List.nodup_cons] at hnd
    rw [show longTable (s :: rest) = seriesRows s.1 s.2 ++ longTable rest from
        List.flatMap_cons s rest _,
      cumcount_block_append s.1 s.2 (longTable rest)
        (fun r hr hsrc => hnd.1 (hsrc ▸ longTable_source hr)),
      ih hnd.2, List.flatMap_cons]

/-! ### Cell lookup in the pivoted table -/

theorem find?_blockPairs_ne {name s : String} (hne : name ≠ s)
    (pts : List (Int × Int)) (a : Nat) (i : Nat) :
    (blockPairsFrom name pts a).find? (fun ri => ri.1.source == s && ri.2 == i) = none := by
  apply List.find?_eq_none.mpr
  intro x hx
  unfold blockPairsFrom at hx
  rcases List.mem_map.mp hx with ⟨pk, _, rfl⟩
  simp [hne]

theorem find?_blockPairs_same (name : String) (i : Nat) :
    ∀ (pts : List (Int × Int)) (a : Nat),
      (blockPairsFrom name pts a).find? (fun ri => ri.1.source == name && ri.2 == i) =
        if a ≤ i ∧ i < a + pts.length
        then some ({ re := (pts.getD (i - a) (0, 0)).1,
                     nim := (pts.getD (i - a) (0, 0)).2,
                     source := name }, i)
        else none := by
  intro pts
  induction pts with
  | nil =>
    intro a
    rw [if_neg (by simp only [List.length_nil]; omega)]
    rfl
  | cons p pts ih =>
    intro a
    rw [blockPairsFrom_cons, List.find?_cons]
    by_cases hai : i = a
    · subst hai
      have hcond : i ≤ i ∧ i < i + (p :: pts).length := by
        simp only [List.length_cons]
        omega
      rw [if_pos hcond]
      simp
    · have hpred : (({ re := p.1, nim := p.2, source := name } : LongRow).source == name &&
          a == i) = false := by
        simp only [beq_self_eq_true, Bool.true_and]
        exact beq_eq_false_iff_ne.mpr (fun h => hai h.symm)
      rw [hpred, ih (a + 1)]
      by_cases hcond : a + 1 ≤ i ∧ i < a + 1 + pts.length
      · rw [if_pos hcond, if_pos (by simp only [List.length_cons]; omega)]
        have hidx : i - a = i - (a + 1) + 1 := by omega
        rw [hidx, List.getD_cons_succ]
      · rw [if_neg hcond, if_neg (by simp only [List.length_cons]; omega)]

theorem find?_blocks_none {name : String} (i : Nat) :
    ∀ (series : List (String × List (Int × Int))), name ∉ series.map Prod.fst →
      (series.flatMap fun s => blockPairsFrom s.1 s.2 0).find?
        (fun ri => ri.1.source == name && ri.2 == i) = none := by
  intro series
  induction series with
  | nil => intro _; rfl
  | cons s rest ih =>
    intro h
    rw [List.map_cons] at h
    have hne : s.1 ≠ name := fun hss =>
      h (by rw [← hss]; exact List.mem_cons_self s.1 (List.map Prod.fst rest))
    rw [List.flatMap_cons, List.find?_append, find?_blockPairs_ne hne s.2 0 i,
      ih (fun hmem => h (List.mem_cons_of_mem s.1 hmem))]
    rfl

theorem lookupCell_blocks (v : String) (i : Nat) (name : String) (pts : List (Int × Int)) :
    ∀ series : List (String × List (Int × Int)),
      (series.map Prod.fst).Nodup → (name, pts) ∈ series →
      lookupCell (series.flatMap fun s => blockPairsFrom s.1 s.2 0) v name i =
        if i < pts.length
        then some (if v == "Re(Z)/Ohm" then (pts.getD i (0, 0)).1 else (pts.getD i (0, 0)).2)
        else none := by
  intro series
  induction series with
  | nil => intro _ hmem; cases hmem
  | cons s rest ih =>
    intro hnd hmem
    rw [List.map_cons, List.nodup_cons] at hnd
    unfold lookupCell
    rw [List.flatMap_cons, List.find?_append]
    rcases List.mem_cons.mp hmem with heq | hmem'
    · have hs : s = (name, pts) := heq.symm
      subst hs
      rw [find?_blockPairs_same name i pts 0]
      by_cases hi : i < pts.length
      · rw [if_pos ⟨Nat.zero_le i, by omega⟩, Option.or_some, if_pos hi]
        simp only [Option.map_some', Nat.sub_zero]
      · rw [if_neg (by omega), Option.none_or,
          find?_blocks_none i rest hnd.1, if_neg hi]
        rfl
    · have hne : s.1 ≠ name := by
        intro hss
        exact hnd.1 (hss ▸ List.mem_map.mpr ⟨(name, pts), hmem', rfl⟩)
      rw [find?_blockPairs_ne hne s.2 0 i, Option.none_or]
      have := ih hnd.2 hmem'
      unfold lookupCell at this
      exact this

/-! ### Distinct sources and row labels of the pivot -/

theorem mem_uniqueKeep {α : Type} [DecidableEq α] :
    ∀ (l : List α) (x : α), x ∈ uniqueKeep l ↔ x ∈ l := by
  intro l
  induction l with
  | nil => intro x; rfl
  | cons a l ih =>
    intro x
    simp only [uniqueKeep, List.mem_cons, List.mem_filter, ih, bne_iff_ne, ne_eq]
    constructor
    · rintro (rfl | ⟨hx, _⟩)
      · exact Or.inl rfl
      · exact Or.inr hx
    · rintro (rfl | hx)
      · exact Or.inl rfl
      · by_cases hxa : x = a
        · exact Or.inl hxa
        · exact Or.inr ⟨hx, hxa⟩

theorem uniqueKeep_nodup {α : Type} [DecidableEq α] : ∀ l : List α, (uniqueKeep l).Nodup := by
  intro l
  induction l with
  | nil => exact List.nodup_nil
  | cons a l ih =>
    rw [show uniqueKeep (a :: l) = a :: (uniqueKeep l).filter (· != a) from rfl,
      List.nodup_cons]
    constructor
    · intro hmem
      have := (List.mem_filter.mp hmem).2
      simp at this
    · exact ih.filter _

theorem map_source_seriesRows (name : String) (pts : List (Int × Int)) :
    (seriesRows name pts).map (fun r => r.source) = List.replicate pts.length name := by
  unfold seriesRows
  rw [List.map_map]
  induction pts with
  | nil => rfl
  | cons p pts ih =>
    rw [List.map_cons, List.length_cons, List.replicate_succ, ih]
    rfl

theorem uniqueKeep_replicate_append {α : Type} [DecidableEq α] (a : α) :
    ∀ (n : Nat) (L : List α), 0 < n →
      uniqueKeep (List.replicate n a ++ L) = a :: (uniqueKeep L).filter (· != a) := by
  intro n
  induction n with
  | zero => intro L h; omega
  | succ n ih =>
    intro L _
    rw [List.replicate_succ, List.cons_append,
      show uniqueKeep (a :: (List.replicate n a ++ L)) =
        a :: (uniqueKeep (List.replicate n a ++ L)).filter (· != a) from rfl]
    rcases Nat.eq_zero_or_pos n with hn | hn
    · subst hn
      rw [List.replicate_zero, List.nil_append]
    · rw [ih L hn, List.filter_cons]
      have : ((a != a) = true) = False := by simp
      rw [if_neg (by simp), List.filter_filter]
      congr 1
      apply List.filter_congr
      intro x _
      rw [Bool.and_self]

theorem sourcesOf_longTable :
    ∀ series : List (String × List (Int × Int)), (series.map Prod.fst).Nodup →
      (∀ s ∈ series, s.2 ≠ []) → sourcesOf (longTable series) = series.map Prod.fst := by
  intro series
  induction series with
  | nil => intro _ _; rfl
  | cons s rest ih =>
    intro hnd hne
    rw [List.map_cons, List.nodup_cons] at hnd
    have hlen : 0 < s.2.length :=
      List.length_pos.mpr (hne s (List.mem_cons_self s rest))
    unfold sourcesOf
    rw [show longTable (s :: rest) = seriesRows s.1 s.2 ++ longTable rest from
        List.flatMap_cons s rest _,
      List.map_append, map_source_seriesRows,
      uniqueKeep_replicate_append s.1 s.2.length _ hlen]
    have hih : uniqueKeep ((longTable rest).map fun r => r.source) = rest.map Prod.fst :=
      ih hnd.2 (fun t ht => hne t (List.mem_cons_of_mem s ht))
    rw [show uniqueKeep (List.map (fun r => r.source) (longTable rest)) = rest.map Prod.fst
      from hih]
    rw [List.filter_eq_self.mpr ?_, List.map_cons]
    intro name hname
    simp only [bne_iff_ne, ne_eq]
    intro heq
    exact hnd.1 (heq ▸ hname)

theorem blockPairsFrom_snd (name : String) (pts : List (Int × Int)) (a : Nat) :
    (blockPairsFrom name pts a).map Prod.snd = List.range' a pts.length := by
  unfold blockPairsFrom
  rw [List.map_map]
  have h : (pts.zip (List.range' a pts.length)).map
      (Prod.snd ∘ fun pk : (Int × Int) × Nat =>
        (({ re := pk.1.1, nim := pk.1.2, source := name } : LongRow), pk.2)) =
      (pts.zip (List.range' a pts.length)).map Prod.snd := rfl
  rw [h, List.map_snd_zip]
  rw [List.length_range']

theorem mem_blocks_snd (series : List (String × List (Int × Int))) (j : Nat) :
    (j ∈ (series.flatMap fun s => blockPairsFrom s.1 s.2 0).map Prod.snd) ↔
      ∃ s ∈ series, j < s.2.length := by
  rw [List.map_flatMap]
  simp only [List.mem_flatMap, blockPairsFrom_snd, List.mem_range'_1]
  constructor
  · rintro ⟨s, hs, _, hj⟩
    exact ⟨s, hs, by omega⟩
  · rintro ⟨s, hs, hj⟩
    exact ⟨s, hs, Nat.zero_le j, by omega⟩

theorem lt_maxSeriesLen_iff (series : List (String × List (Int × Int))) (j : Nat) :
    j < maxSeriesLen series ↔ ∃ s ∈ series, j < s.2.length := by
  induction series with
  | nil => simp [maxSeriesLen]
  | cons s rest ih =>
    rw [show maxSeriesLen (s :: rest) = max s.2.length (maxSeriesLen rest) from rfl]
    simp only [List.mem_cons, lt_max_iff, ih]
    constructor
    · rintro (h | ⟨t, ht, hj⟩)
      · exact ⟨s, Or.inl rfl, h⟩
      · exact ⟨t, Or.inr ht, hj⟩
    · rintro ⟨t, (rfl | ht), hj⟩
      · exact Or.inl hj
      · exact Or.inr ⟨t, ht, hj⟩

/-! ### Sorting helpers -/

theorem pairwise_key_mergeSort {α : Type} {β : Type} [LinearOrder β] (k : α → β)
    (l : List α) :
    (l.mergeSort fun a b => decide (k a ≤ k b)).Pairwise fun a b => k a ≤ k b := by
  refine (List.sorted_mergeSort ?_ ?_ l).imp fun hab => of_decide_eq_true hab
  · intro a b c hab hbc
    rw [decide_eq_true_iff] at hab hbc ⊢
    exact le_trans hab hbc
  · intro a b
    rcases le_total (k a) (k b) with h | h <;> simp [h]

theorem sorted_nodup_nat_eq_range {l : List Nat} {K : Nat} (hn : l.Nodup)
    (hs : l.Sorted (· ≤ ·)) (hm : ∀ j, j ∈ l ↔ j < K) : l = List.range K := by
  have hperm : l.Perm (List.range K) :=
    (List.perm_ext_iff_of_nodup hn (List.nodup_range K)).mpr fun a => by
      rw [hm a, List.mem_range]
  exact List.eq_of_perm_of_sorted hperm hs
    ((List.pairwise_lt_range K).imp fun h => le_of_lt h)

theorem rowIdxs_longTable {series : List (String × List (Int × Int))}
    (hnd : (series.map Prod.fst).Nodup) :
    rowIdxs (cumcount (longTable series)) = List.range (maxSeriesLen series) := by
  unfold rowIdxs
  rw [cumcount_longTable hnd]
  apply sorted_nodup_nat_eq_range
  · exact ((List.mergeSort_perm _ _).nodup_iff).mpr (uniqueKeep_nodup _)
  · exact pairwise_key_mergeSort id _
  · intro j
    rw [(List.mergeSort_perm _ _).mem_iff, mem_uniqueKeep, mem_blocks_snd,
      lt_maxSeriesLen_iff]

theorem sorted_key_perm_eq {α : Type} {β : Type} [LinearOrder β] (k : α → β) :
    ∀ (l₁ l₂ : List α), l₁.Perm l₂ → l₁.Pairwise (fun a b => k a < k b) →
      l₂.Pairwise (fun a b => k a < k b) → l₁ = l₂ := by
  intro l₁
  induction l₁ with
  | nil => intro l₂ hp _ _; exact hp.nil_eq
  | cons a t₁ ih =>
    intro l₂ hp hs₁ hs₂
    rcases l₂ with _ | ⟨b, t₂⟩
    · cases hp.symm.nil_eq
    · by_cases hab : a = b
      · subst hab
        rw [ih t₂ hp.cons_inv (List.pairwise_cons.mp hs₁).2 (List.pairwise_cons.mp hs₂).2]
      · have ha2 : a ∈ t₂ := by
          rcases List.mem_cons.mp (hp.subset (List.mem_cons_self a t₁)) with h | h
          · exact absurd h hab
          · exact h
        have hb1 : b ∈ t₁ := by
          rcases List.mem_cons.mp (hp.symm.subset (List.mem_cons_self b t₂)) with h | h
          · exact absurd h.symm hab
          · exact h
        have hba : k b < k a := (List.pairwise_cons.mp hs₂).1 a ha2
        have hab' : k a < k b := (List.pairwise_cons.mp hs₁).1 b hb1
        exact absurd hba (lt_asymm hab')

theorem pairwise_lt_of_le_nodup {α : Type} {β : Type} [LinearOrder β] {k : α → β}
    {l : List α} (hle : l.Pairwise fun a b => k a ≤ k b) (hnd : (l.map k).Nodup) :
    l.Pairwise fun a b => k a < k b := by
  have hne : l.Pairwise fun a b => k a ≠ k b := List.pairwise_map.mp hnd
  exact (hle.and hne).imp fun h => lt_of_le_of_ne h.1 h.2

/-! ### Columns of the pivoted table -/

theorem compositeName_inj {v₁ v₂ s₁ s₂ : String}
    (h₁ : v₁ ∈ valueKinds) (h₂ : v₂ ∈ valueKinds)
    (heq : compositeName (v₁, s₁) = compositeName (v₂, s₂)) : v₁ = v₂ ∧ s₁ = s₂ := by
  have hsame : ∀ v s s' : String, compositeName (v, s) = compositeName (v, s') → s = s' := by
    intro v s s' h
    have hd := congrArg String.data h
    unfold compositeName at hd
    rw [String.data_append, String.data_append, String.data_append, String.data_append] at hd
    exact String.ext (List.append_cancel_left hd)
  unfold valueKinds at h₁ h₂
  rcases List.mem_cons.mp h₁ with rfl | h₁ <;> rcases List.mem_cons.mp h₂ with rfl | h₂
  · exact ⟨rfl, hsame _ _ _ heq⟩
  · rw [List.mem_singleton.mp h₂] at heq ⊢
    have hd := congrArg String.data heq
    unfold compositeName at hd
    rw [String.data_append, String.data_append, String.data_append, String.data_append] at hd
    simp at hd
  · rw [List.mem_singleton.mp h₁] at heq ⊢
    have hd := congrArg String.data heq
    unfold compositeName at hd
    rw [String.data_append, String.data_append, String.data_append, String.data_append] at hd
    simp at hd
  · rw [List.mem_singleton.mp h₁] at heq ⊢
    rw [List.mem_singleton.mp h₂] at heq ⊢
    exact ⟨rfl, hsame _ _ _ heq⟩

theorem mem_sortedCols (rows : List LongRow) (vc : String × String) :
    vc ∈ sortedCols rows ↔ vc.1 ∈ valueKinds ∧ vc.2 ∈ sourcesOf rows := by
  unfold sortedCols
  rw [(List.mergeSort_perm _ _).mem_iff]
  constructor
  · intro h
    rcases List.mem_flatMap.mp h with ⟨v, hv, hmem⟩
    rcases List.mem_map.mp hmem with ⟨s, hs, rfl⟩
    exact ⟨hv, hs⟩
  · rintro ⟨h1, h2⟩
    exact List.mem_flatMap.mpr ⟨vc.1, h1, List.mem_map.mpr ⟨vc.2, h2, rfl⟩⟩

theorem sortedCols_length (rows : List LongRow) :
    (sortedCols rows).length = 2 * (sourcesOf rows).length := by
  unfold sortedCols
  rw [List.length_mergeSort,
    show valueKinds = ["Re(Z)/Ohm", "-Im(Z)/Ohm"] from rfl,
    List.flatMap_cons, List.flatMap_cons, List.flatMap_nil, List.append_nil,
    List.length_append, List.length_map, List.length_map]
  omega

theorem sortedCols_names_nodup (rows : List LongRow) :
    ((sortedCols rows).map compositeName).Nodup := by
  unfold sortedCols
  apply ((List.mergeSort_perm _ _).map compositeName).nodup_iff.mpr
  apply List.Nodup.map_on
  · intro x hx y hy hxy
    rcases List.mem_flatMap.mp hx with ⟨v₁, hv₁, hm₁⟩
    rcases List.mem_map.mp hm₁ with ⟨s₁, hs₁, rfl⟩
    rcases List.mem_flatMap.mp hy with ⟨v₂, hv₂, hm₂⟩
    rcases List.mem_map.mp hm₂ with ⟨s₂, hs₂, rfl⟩
    have h := compositeName_inj hv₁ hv₂ hxy
    rw [h.1, h.2]
  · apply List.nodup_flatMap.mpr
    constructor
    · intro v _
      apply List.Nodup.map_on ?_ (uniqueKeep_nodup _)
      intro s₁ _ s₂ _ h
      exact (Prod.ext_iff.mp h).2
    · rw [show valueKinds = ["Re(Z)/Ohm", "-Im(Z)/Ohm"] from rfl]
      refine List.Pairwise.cons ?_ (List.pairwise_singleton _ _)
      intro v hv
      rw [List.mem_singleton.mp hv]
      intro x hx₁ hx₂
      rcases List.mem_map.mp hx₁ with ⟨s₁, _, rfl⟩
      rcases List.mem_map.mp hx₂ with ⟨s₂, _, heq⟩
      have : ("-Im(Z)/Ohm" : String) = "Re(Z)/Ohm" := congrArg Prod.fst heq
      exact absurd this (by decide)

theorem sortedCols_names_sorted (rows : List LongRow) :
    ((sortedCols rows).map compositeName).Sorted (· ≤ ·) :=
  List.pairwise_map.mpr (pairwise_key_mergeSort compositeName _)

theorem sortedCols_strict (rows : List LongRow) :
    (sortedCols rows).Pairwise fun a b => compositeName a < compositeName b :=
  pairwise_lt_of_le_nodup (pairwise_key_mergeSort compositeName _)
    (sortedCols_names_nodup rows)

theorem findIdx?_unique {α : Type} (p : α → Bool) :
    ∀ (l : List α) (x : α), x ∈ l → p x = true → (∀ y ∈ l, p y = true → y = x) →
      ∃ j : Nat, ∃ h : j < l.length, l.findIdx? p = some j ∧ l.get ⟨j, h⟩ = x := by
  intro l
  induction l with
  | nil => intro x hx; cases hx
  | cons a l ih =>
    intro x hx hpx huniq
    by_cases hpa : p a = true
    · have hax : a = x := huniq a (List.mem_cons_self a l) hpa
      refine ⟨0, by simp, ?_, hax⟩
      rw [List.findIdx?_cons, if_pos hpa]
    · have hxl : x ∈ l := by
        rcases List.mem_cons.mp hx with rfl | h
        · exact absurd hpx hpa
        · exact h
      obtain ⟨j, hj, hfind, hget⟩ :=
        ih x hxl hpx (fun y hy hpy => huniq y (List.mem_cons_of_mem a hy) hpy)
      refine ⟨j + 1, by simpa using Nat.succ_lt_succ hj, ?_, ?_⟩
      · rw [List.findIdx?_cons, if_neg (by simp [hpa]), List.findIdx?_succ, hfind]
        rfl
      · rw [List.get_cons_succ]
        exact hget

theorem getD_map_range {α : Type} (K : Nat) (f : Nat → α) (i : Nat) (d : α)
    (hi : i < K) : ((List.range K).map f).getD i d = f i := by
  rw [List.getD_eq_getElem _ _ (by simpa using hi), List.getElem_map, List.getElem_range]

theorem getD_map_get {α β : Type} (l : List α) (f : α → β) (j : Nat)
    (h : j < l.length) (d : β) : (l.map f).getD j d = f (l.get ⟨j, h⟩) := by
  rw [List.getD_eq_getElem _ _ (by simpa using h), List.getElem_map]
  rfl

theorem len_le_maxSeriesLen {series : List (String × List (Int × Int))}
    {s : String × List (Int × Int)} (hs : s ∈ series) :
    s.2.length ≤ maxSeriesLen series := by
  rcases Nat.eq_zero_or_pos s.2.length with h | h
  · omega
  · have := (lt_maxSeriesLen_iff series (s.2.length - 1)).mpr ⟨s, hs, by omega⟩
    omega

theorem mkWide_cell {series : List (String × List (Int × Int))}
    (hnd : (series.map Prod.fst).Nodup) (hne : ∀ s ∈ series, s.2 ≠ [])
    {name : String} {pts : List (Int × Int)} (hmem : (name, pts) ∈ series)
    {v : String} (hv : v ∈ valueKinds) (i : Nat) :
    (mkWide (longTable series)).cell i (compositeName (v, name)) =
      if i < pts.length
      then some (if v == "Re(Z)/Ohm" then (pts.getD i (0, 0)).1 else (pts.getD i (0, 0)).2)
      else none := by
  have hsrc : name ∈ sourcesOf (longTable series) := by
    rw [sourcesOf_longTable series hnd hne]
    exact List.mem_map.mpr ⟨(name, pts), hmem, rfl⟩
  have hvc : (v, name) ∈ sortedCols (longTable series) :=
    (mem_sortedCols _ _).mpr ⟨hv, hsrc⟩
  have huniq : ∀ y ∈ sortedCols (longTable series),
      (compositeName y == compositeName (v, name)) = true → y = (v, name) := by
    intro y hy hpy
    have hy1 : y.1 ∈ valueKinds := ((mem_sortedCols _ _).mp hy).1
    have heq : compositeName (y.1, y.2) = compositeName (v, name) := beq_iff_eq.mp hpy
    have h2 := compositeName_inj hy1 hv heq
    exact Prod.ext_iff.mpr ⟨h2.1, h2.2⟩
  obtain ⟨j, hj, hfind, hget⟩ := findIdx?_unique
    (fun vc => compositeName vc == compositeName (v, name))
    (sortedCols (longTable series)) (v, name) hvc (by simp) huniq
  unfold WideTable.cell mkWide
  simp only []
  rw [List.findIdx?_map,
    show ((fun n => n == compositeName (v, name)) ∘ compositeName) =
      (fun vc => compositeName vc == compositeName (v, name)) from rfl,
    hfind]
  simp only []
  rw [rowIdxs_longTable hnd]
  by_cases hiK : i < maxSeriesLen series
  · rw [getD_map_range _ _ _ _ hiK, getD_map_get _ _ j hj none, hget]
    rw [cumcount_longTable hnd]
    exact lookupCell_blocks v i name pts series hnd hmem
  · have h0 : ((List.range (maxSeriesLen series)).map
        (fun i => (sortedCols (longTable series)).map
          fun vc => lookupCell (cumcount (longTable series)) vc.1 vc.2 i)).getD i [] = [] :=
      List.getD_eq_default _ _ (by rw [List.length_map, List.length_range]; omega)
    rw [h0, List.getD_nil, if_neg]
    have := len_le_maxSeriesLen hmem
    simp only [] at this
    omega

theorem download_data_eq (rows : List LongRow) : download_data rows = some (mkWide rows) := by
  unfold download_data
  rw [if_pos (wideKeys_cumcount_nodup rows)]

theorem mkWide_colNames_length {series : List (String × List (Int × Int))}
    (hnd : (series.map Prod.fst).Nodup) (hne : ∀ s ∈ series, s.2 ≠ []) :
    (mkWide (longTable series)).colNames.length = 2 * series.length := by
  unfold mkWide
  simp only []
  rw [List.length_map, sortedCols_length, sourcesOf_longTable series hnd hne,
    List.length_map]

theorem mkWide_rows_length {series : List (String × List (Int × Int))}
    (hnd : (series.map Prod.fst).Nodup) :
    (mkWide (longTable series)).rows.length = maxSeriesLen series := by
  unfold mkWide
  simp only []
  rw [List.length_map, rowIdxs_longTable hnd, List.length_range]

theorem mkWide_colNames_sorted (rows : List LongRow) :
    (mkWide rows).colNames.Sorted (· ≤ ·) :=
  sortedCols_names_sorted rows

theorem maxSeriesLen_const {series : List (String × List (Int × Int))} {M : Nat}
    (hne : series ≠ []) (hM : ∀ s ∈ series, s.2.length = M) : maxSeriesLen series = M := by
  induction series with
  | nil => exact absurd rfl hne
  | cons s rest ih =>
    rw [show maxSeriesLen (s :: rest) = max s.2.length (maxSeriesLen rest) from rfl,
      hM s (List.mem_cons_self s rest)]
    rcases rest with _ | ⟨t, rest'⟩
    · rw [show maxSeriesLen ([] : List (String × List (Int × Int))) = 0 from rfl]
      omega
    · rw [ih (by simp) (fun u hu => hM u (List.mem_cons_of_mem s hu))]
      exact Nat.max_self M

theorem mkWide_perm {series₁ series₂ : List (String × List (Int × Int))}
    (hp : series₁.Perm series₂)
    (hnd : (series₁.map Prod.fst).Nodup) (hne : ∀ s ∈ series₁, s.2 ≠ []) :
    mkWide (longTable series₁) = mkWide (longTable series₂) := by
  have hnd₂ : (series₂.map Prod.fst).Nodup := ((hp.map Prod.fst).nodup_iff).mp hnd
  have hne₂ : ∀ s ∈ series₂, s.2 ≠ [] := fun s hs => hne s (hp.symm.subset hs)
  have hprodperm : (valueKinds.flatMap fun v =>
        (sourcesOf (longTable series₁)).map fun s => (v, s)).Perm
      (valueKinds.flatMap fun v => (sourcesOf (longTable series₂)).map fun s => (v, s)) := by
    rw [sourcesOf_longTable series₁ hnd hne, sourcesOf_longTable series₂ hnd₂ hne₂,
      show valueKinds = ["Re(Z)/Ohm", "-Im(Z)/Ohm"] from rfl]
    simp only [List.flatMap_cons, List.flatMap_nil, List.append_nil]
    exact ((hp.map Prod.fst).map _).append ((hp.map Prod.fst).map _)
  have hcols : sortedCols (longTable series₁) = sortedCols (longTable series₂) := by
    apply sorted_key_perm_eq compositeName
    · exact ((List.mergeSort_perm _ _).trans hprodperm).trans (List.mergeSort_perm _ _).symm
    · exact sortedCols_strict _
    · exact sortedCols_strict _
  have hmaxiff : ∀ j, j < maxSeriesLen series₁ ↔ j < maxSeriesLen series₂ := fun j => by
    rw [lt_maxSeriesLen_iff, lt_maxSeriesLen_iff]
    constructor <;> rintro ⟨s, hs, hj⟩
    · exact ⟨s, hp.subset hs, hj⟩
    · exact ⟨s, hp.symm.subset hs, hj⟩
  have hmax : maxSeriesLen series₁ = maxSeriesLen series₂ := by
    rcases Nat.lt_trichotomy (maxSeriesLen series₁) (maxSeriesLen series₂) with h | h | h
    · have := (hmaxiff (maxSeriesLen series₁)).mpr h
      omega
    · exact h
    · have := (hmaxiff (maxSeriesLen series₂)).mp h
      omega
  unfold mkWide
  simp only []
  rw [hcols, rowIdxs_longTable hnd, rowIdxs_longTable hnd₂, hmax]
  congr 1
  apply List.map_congr_left
  intro i _
  apply List.map_congr_left
  intro vc hvc
  have hvks := (mem_sortedCols _ _).mp hvc
  have hvk2 := hvks.2
  rw [sourcesOf_longTable series₂ hnd₂ hne₂] at hvk2
  obtain ⟨s, hs₂, hfst⟩ := List.mem_map.mp hvk2
  have hs₁ : s ∈ series₁ := hp.symm.subset hs₂
  rw [cumcount_longTable hnd, cumcount_longTable hnd₂, ← hfst]
  rw [lookupCell_blocks vc.1 i s.1 s.2 series₁ hnd hs₁,
    lookupCell_blocks vc.1 i s.1 s.2 series₂ hnd₂ hs₂]

/-! ## The claims -/

/-- C1: `parse_search_string` splits its input on commas and, after stripping
whitespace from each token, a single digit-string token contributes the token
itself, a token of two integers joined by a hyphen contributes every integer
in the inclusive range between them taken as (min, max) regardless of input
order, and every empty, non-numeric or otherwise malformed token (wrong piece
count around hyphens, or pieces `int()` rejects) contributes nothing — so no
bad token fails the whole query; in particular
`parse("1-3, 5") = {"1","2","3","5"}` and `parse("5-1") = {"1","2","3","4","5"}`. -/
theorem C1_parse_splits_and_expands :
    (∀ q x, x ∈ parse_search_string q ↔
      q ≠ "" ∧ ∃ t ∈ pySplit ',' q.data, x ∈ tokenIds t) ∧
    (∀ t, pyIsDigitL (pyStrip t) = true → tokenIds t = {String.mk (pyStrip t)}) ∧
    (∀ t a b s e, pyStrip t = a ++ '-' :: b → '-' ∉ a → '-' ∉ b →
      pyIntL a = some s → pyIntL b = some e →
      tokenIds t = ((intRange (min s e) (max s e)).map pyStr).toFinset) ∧
    (∀ t, pyStrip t = [] → tokenIds t = ∅) ∧
    (∀ t, pyStrip t ≠ [] → '-' ∉ pyStrip t → pyIsDigitL (pyStrip t) = false →
      tokenIds t = ∅) ∧
    (∀ t a b, '-' ∈ pyStrip t → pySplit '-' (pyStrip t) = [a, b] →
      pyIntL a = none ∨ pyIntL b = none → tokenIds t = ∅) ∧
    (∀ t, '-' ∈ pyStrip t → (∀ a b, pySplit '-' (pyStrip t) ≠ [a, b]) →
      tokenIds t = ∅) ∧
    parse_search_string "1-3, 5" = {"1", "2", "3", "5"} ∧
    parse_search_string "5-1" = {"1", "2", "3", "4", "5"} :=
  ⟨mem_parse_search_string_iff,
    fun _ h => tokenIds_digits h,
    fun _ _ _ _ _ h1 h2 h3 h4 h5 => tokenIds_range h1 h2 h3 h4 h5,
    fun _ h => tokenIds_empty h,
    fun _ h1 h2 h3 => tokenIds_plain_nondigit h1 h2 h3,
    fun _ _ _ h1 h2 h3 => tokenIds_hyphen_bad_int h1 h2 h3,
    fun _ h1 h2 => tokenIds_hyphen_bad_pieces h1 h2,
    by decide, by decide⟩

/-- C1 witness: the per-token clauses applied at concrete tokens. -/
theorem C1_witness :
    tokenIds [' ', '4', '2'] = {String.mk (pyStrip [' ', '4', '2'])} ∧
    tokenIds ['5', '-', '1'] = ((intRange (min 5 1) (max 5 1)).map pyStr).toFinset ∧
    tokenIds ['x'] = ∅ ∧
    ("5" ∈ parse_search_string "1-3, 5" ↔ ("1-3, 5" : String) ≠ "" ∧
      ∃ t ∈ pySplit ',' ("1-3, 5" : String).data, "5" ∈ tokenIds t) :=
  ⟨C1_parse_splits_and_expands.2.1 [' ', '4', '2'] (by decide),
    C1_parse_splits_and_expands.2.2.1 ['5', '-', '1'] ['5'] ['1'] 5 1
      (by decide) (by decide) (by decide) (by decide) (by decide),
    C1_parse_splits_and_expands.2.2.2.2.1 ['x'] (by decide) (by decide) (by decide),
    C1_parse_splits_and_expands.1 "1-3, 5" "5"⟩

/-- C8 counterexample: the claim's own example fails on the code — a single
token keeps its leading zeros verbatim (`parse("007") = {"007"}`) while the
range token is rendered canonically (`parse("7-7") = {"7"}`), so the two do
not denote the same identifier string and `"007"` is not a canonical decimal
representation. -/
theorem C8_counterexample :
    parse_search_string "007" = {"007"} ∧ parse_search_string "7-7" = {"7"} ∧
      parse_search_string "007" ≠ parse_search_string "7-7" :=
  ⟨by decide, by decide, by decide⟩

/-- C8 amended: every identifier `parse_search_string` emits is either the
canonical decimal representation of a natural number (all range-token output)
or a non-empty digit string taken verbatim from a stripped single token — in
which case leading zeros are preserved, so `parse("007") = {"007"}` while
`parse("7-7") = {"7"}`. -/
theorem C8_amended_identifier_shape :
    (∀ q x, x ∈ parse_search_string q →
      (∃ n : Nat, x = Nat.repr n) ∨
        (∃ cs, x = String.mk cs ∧ cs ≠ [] ∧ cs.all Char.isDigit = true)) ∧
    parse_search_string "007" = {"007"} ∧ parse_search_string "7-7" = {"7"} := by
  refine ⟨?_, by decide, by decide⟩
  intro q x hx
  rcases (mem_parse_search_string_iff q x).mp hx with ⟨_, t, _, hxt⟩
  rcases mem_tokenIds_shape hxt with h | ⟨hx', hdig⟩
  · exact Or.inl h
  · have hd := (Bool.and_eq_true _ _).mp hdig
    refine Or.inr ⟨pyStrip t, hx', ?_, hd.2⟩
    intro h0
    rw [h0] at hd
    simp at hd

/-- C8 amended witness: the shape clause applied at a concrete query. -/
theorem C8_amended_witness :
    (∃ n : Nat, ("3" : String) = Nat.repr n) ∨
      (∃ cs, ("3" : String) = String.mk cs ∧ cs ≠ [] ∧ cs.all Char.isDigit = true) :=
  C8_amended_identifier_shape.1 "2-3" "3" (by decide)

/-- C7: `get_legend_name` splits on the last underscore; when the trailing
segment is `C` followed by one or more digits it returns everything before
that underscore, and every other name — including names with no underscore
before the `C` token — is returned unchanged; in particular
`legendName("17153_trial_C01") = "17153_trial"` and `"17153_trialC1"` is
unchanged. -/
theorem C7_legend_name :
    get_legend_name "17153_trial_C01" = "17153_trial" ∧
    get_legend_name "17153_trialC1" = "17153_trialC1" ∧
    (∀ pre ds, ds ≠ [] → ds.all Char.isDigit = true →
      get_legend_name (String.mk (pre ++ '_' :: 'C' :: ds)) = String.mk pre) ∧
    (∀ s : String, get_legend_name s = s ∨
      ∃ pre ds, s.data = pre ++ '_' :: 'C' :: ds ∧ ds ≠ [] ∧
        ds.all Char.isDigit = true ∧ get_legend_name s = String.mk pre) :=
  ⟨by decide, by decide, fun pre ds h1 h2 => get_legend_name_strip pre ds h1 h2,
    get_legend_name_cases⟩

/-- C7 witness: the stripping clause applied at a concrete name. -/
theorem C7_witness :
    get_legend_name (String.mk (['a', 'b'] ++ '_' :: 'C' :: ['0', '7'])) =
      String.mk ['a', 'b'] :=
  C7_legend_name.2.2.1 ['a', 'b'] ['0', '7'] (by decide) (by decide)

/-- C4: with distinct filename stems, a discovered file yields a record in
`cell_data` exactly when it parsed and its table carries both required
columns, and its basename lands in `failed_files` exactly otherwise — parse
and validation failures are recorded per file, never raised, so no file
aborts the ingestion run. -/
theorem C4_per_file_ingestion :
    ∀ files : List (String × Except Unit Df),
      (files.map fun f => fileStem f.1).Nodup → ∀ f ∈ files,
      ((fileStem f.1 ∈ (ingest files).1.map Prod.fst) ↔
        ∃ df, f.2 = Except.ok df ∧ hasRequired df = true) ∧
      ((f.1 ∈ (ingest files).2) ↔
        ∀ df, f.2 = Except.ok df → hasRequired df = false) := by
  intro files hnd f hf
  have hnames : (files.map fun f => f.1).Nodup := by
    have hcomp : (files.map fun f => fileStem f.1) =
        (files.map fun f => f.1).map fileStem := by
      rw [List.map_map]
      rfl
    exact List.Nodup.of_map fileStem (hcomp ▸ hnd)
  rw [ingest_eq files hnd]
  constructor
  · constructor
    · intro hk
      rcases List.mem_map.mp hk with ⟨p, hp, hps⟩
      rcases List.mem_filterMap.mp hp with ⟨g, hg, hgp⟩
      rcases hg2 : g.2 with e | df <;> rw [hg2] at hgp <;> simp only [] at hgp
      · cases hgp
      · by_cases hreq : hasRequired df = true
        · rw [if_pos hreq] at hgp
          injection hgp with hgp'
          have hstems : fileStem g.1 = fileStem f.1 := by
            rw [← hps, ← hgp']
          have hgf : g = f := List.inj_on_of_nodup_map hnd hg hf hstems
          exact ⟨df, hgf ▸ hg2, hreq⟩
        · rw [if_neg hreq] at hgp
          cases hgp
    · rintro ⟨df, hok, hreq⟩
      apply List.mem_map.mpr
      refine ⟨(fileStem f.1, df), ?_, rfl⟩
      apply List.mem_filterMap.mpr
      refine ⟨f, hf, ?_⟩
      rw [show f.2 = Except.ok df from hok]
      simp only []
      rw [if_pos hreq]
  · constructor
    · intro hb df hok
      rcases List.mem_filterMap.mp hb with ⟨g, hg, hgb⟩
      rcases hg2 : g.2 with e | df' <;> rw [hg2] at hgb <;> simp only [] at hgb
      · injection hgb with hgb'
        have hgf : g = f := List.inj_on_of_nodup_map hnames hg hf hgb'
        rw [hgf, hok] at hg2
        cases hg2
      · by_cases hreq : hasRequired df' = true
        · rw [if_pos hreq] at hgb
          cases hgb
        · rw [if_neg hreq] at hgb
          injection hgb with hgb'
          have hgf : g = f := List.inj_on_of_nodup_map hnames hg hf hgb'
          rw [hgf, hok] at hg2
          injection hg2 with hdf
          rw [hdf]
          revert hreq
          cases hasRequired df' <;> simp
    · intro hforall
      apply List.mem_filterMap.mpr
      refine ⟨f, hf, ?_⟩
      rcases hf2 : f.2 with e | df
      · simp only []
      · simp only []
        rw [if_neg (by rw [hforall df hf2]; simp)]

/-- C4 witness: a file with both required columns is indexed, a file whose
read raised is recorded in `failed_files`. -/
theorem C4_witness :
    fileStem "c.mpt" ∈
      (ingest [("c.mpt", Except.ok ⟨["Re(Z)/Ohm", "-Im(Z)/Ohm"], [(1, 2)]⟩),
        ("b.mpt", Except.error ())]).1.map Prod.fst ∧
    "b.mpt" ∈
      (ingest [("c.mpt", Except.ok ⟨["Re(Z)/Ohm", "-Im(Z)/Ohm"], [(1, 2)]⟩),
        ("b.mpt", Except.error ())]).2 := by
  constructor
  · exact (C4_per_file_ingestion
      [("c.mpt", Except.ok ⟨["Re(Z)/Ohm", "-Im(Z)/Ohm"], [(1, 2)]⟩),
        ("b.mpt", Except.error ())] (by decide)
      ("c.mpt", Except.ok ⟨["Re(Z)/Ohm", "-Im(Z)/Ohm"], [(1, 2)]⟩)
      (List.mem_cons_self _ _)).1.mpr
      ⟨⟨["Re(Z)/Ohm", "-Im(Z)/Ohm"], [(1, 2)]⟩, rfl, by decide⟩
  · exact (C4_per_file_ingestion
      [("c.mpt", Except.ok ⟨["Re(Z)/Ohm", "-Im(Z)/Ohm"], [(1, 2)]⟩),
        ("b.mpt", Except.error ())] (by decide)
      ("b.mpt", Except.error ())
      (List.mem_cons_of_mem _ (List.mem_cons_self _ _))).2.mpr (fun df h => by cases h)

/-- C5 counterexample: a file that parses to a table with both required
columns but zero data rows is stored in the index with an empty measurement
sequence — the code checks columns only, never row count — refuting "every
stored CellRecord has at least one MeasurementPoint". -/
theorem C5_counterexample :
    ((ingest [("e.mpt", Except.ok ⟨["Re(Z)/Ohm", "-Im(Z)/Ohm"], []⟩)]).1.any
      fun p => p.2.rows.isEmpty) = true := by decide

/-- C5 amended: every CellRecord stored in the index carries both required
impedance columns (the non-emptiness half of the original claim fails; see
the counterexample — no row-count check exists in the code). -/
theorem C5_amended_required_columns :
    ∀ files : List (String × Except Unit Df),
      ∀ p ∈ (ingest files).1, hasRequired p.2 = true := by
  intro files p hp
  exact ingest_foldl_required files ([], []) (fun q hq => by cases hq) p hp

/-- C5 amended witness: the invariant applied to a concrete ingestion run. -/
theorem C5_witness :
    hasRequired (("c",
      (⟨["Re(Z)/Ohm", "-Im(Z)/Ohm"], [(1, 2)]⟩ : Df)) :
        String × Df).2 = true :=
  C5_amended_required_columns
    [("c.mpt", Except.ok ⟨["Re(Z)/Ohm", "-Im(Z)/Ohm"], [(1, 2)]⟩)]
    ("c", ⟨["Re(Z)/Ohm", "-Im(Z)/Ohm"], [(1, 2)]⟩) (by decide)

/-- C9 counterexample: one unparseable filename does not merely drop out of
the diagnostic — the `ValueError` escapes the whole `max` call, so the
message degrades to "Could not parse filenames." instead of naming the
maximum of the remaining parseable files. -/
theorem C9_counterexample :
    largestFileMessage ["5_a.mpt", "bad.mpt"] =
        "Largest Cell Number: Could not parse filenames." ∧
      largestFileMessage ["5_a.mpt"] = "Largest Cell Number: 5_a" ∧
      largestFileMessage ["5_a.mpt", "bad.mpt"] ≠ "Largest Cell Number: 5_a" :=
  ⟨by decide, by decide, by decide⟩

/-- C9 amended: when any discovered filename's leading token fails to parse
as an integer the entire diagnostic is replaced by the "Could not parse
filenames." message (the index itself is built by `ingest`, which never
inspects leading tokens); when every filename parses, the message names the
stem of a file whose leading integer is maximal. -/
theorem C9_amended_diagnostic :
    (∀ files : List String, files ≠ [] → (∃ f ∈ files, fileKey f = none) →
      largestFileMessage files = "Largest Cell Number: Could not parse filenames.") ∧
    (∀ files : List String, files ≠ [] → (∀ f ∈ files, (fileKey f).isSome = true) →
      ∃ best ∈ files,
        largestFileMessage files = "Largest Cell Number: " ++ fileStem best ∧
        ∃ k, fileKey best = some k ∧
          ∀ g ∈ files, ∀ kg, fileKey g = some kg → kg ≤ k) := by
  constructor
  · intro files hne h
    unfold largestFileMessage
    rw [if_neg (by simp [List.isEmpty_iff, hne]), pyMaxByKey_none h]
  · intro files hne h
    obtain ⟨best, hpmk, hbmem, k, hk, hmax⟩ := pyMaxByKey_some hne h
    refine ⟨best, hbmem, ?_, k, hk, hmax⟩
    unfold largestFileMessage
    rw [if_neg (by simp [List.isEmpty_iff, hne]), hpmk]
    rfl

/-- C9 amended witness: both clauses applied at concrete file lists. -/
theorem C9_witness :
    largestFileMessage ["bad.mpt"] =
        "Largest Cell Number: Could not parse filenames." ∧
      ∃ best ∈ ["5_a.mpt", "12_b.mpt"],
        largestFileMessage ["5_a.mpt", "12_b.mpt"] =
          "Largest Cell Number: " ++ fileStem best ∧
        ∃ k, fileKey best = some k ∧
          ∀ g ∈ ["5_a.mpt", "12_b.mpt"], ∀ kg, fileKey g = some kg → kg ≤ k :=
  ⟨C9_amended_diagnostic.1 ["bad.mpt"] (by decide) ⟨"bad.mpt", by decide, by decide⟩,
    C9_amended_diagnostic.2 ["5_a.mpt", "12_b.mpt"] (by decide) (by decide)⟩

/-- C6: for every identifier set and index, the assembled series are exactly
the records whose name's leading underscore-delimited token is string-equal
to some requested identifier (exact match, not prefix match); concretely,
querying `{"17153"}` over an index holding `17153_trial_C01`,
`17153_trial_C02` and the prefix-distractor `171530_trial_C01` yields exactly
two PlotSeries sharing the legend group `"17153_trial"`. -/
theorem C6_assemble_exact_match :
    (∀ (ids : Finset String) (index : CellIndex) (name : String),
      name ∈ (querySeries ids index).map PlotSeries.cellName ↔
        leadingToken name ∈ ids ∧ name ∈ index.map Prod.fst) ∧
    (querySeries {"17153"}
        [("17153_trial_C01", [(1, 2)]), ("17153_trial_C02", [(3, 4)]),
          ("171530_trial_C01", [(5, 6)])]).map
        (fun s => (s.legendGroup, s.cellName)) =
      [("17153_trial", "17153_trial_C01"), ("17153_trial", "17153_trial_C02")] := by
  refine ⟨mem_querySeries_names, ?_⟩
  unfold querySeries
  rw [Finset.sort_singleton]
  decide

/-- C10: the long table stored by a query assigns each matched cell at most
one series (distinct cell names), and after the group-wise cumulative count
every `(source cellName, measurement index)` pair is distinct, so the wide
pivot is well-defined and never fails on duplicate keys. -/
theorem C10_unique_keys_pivot_safe :
    ∀ (ids : Finset String) (index : CellIndex), (index.map Prod.fst).Nodup →
      ((querySeries ids index).map PlotSeries.cellName).Nodup ∧
      (wideKeys (cumcount (queryLongTable ids index))).Nodup ∧
      (download_data (queryLongTable ids index)).isSome = true :=
  fun ids index hnd =>
    ⟨querySeries_names_nodup ids index hnd,
      wideKeys_cumcount_nodup _, download_data_isSome _⟩

/-- C10 witness: the safety statement at a concrete query and index. -/
theorem C10_witness :
    ((querySeries {"17153"}
        [("17153_trial_C01", [(1, 2)]), ("17153_trial_C02", [(3, 4)])]).map
      PlotSeries.cellName).Nodup ∧
    (wideKeys (cumcount (queryLongTable {"17153"}
      [("17153_trial_C01", [(1, 2)]), ("17153_trial_C02", [(3, 4)])]))).Nodup ∧
    (download_data (queryLongTable {"17153"}
      [("17153_trial_C01", [(1, 2)]), ("17153_trial_C02", [(3, 4)])])).isSome = true :=
  C10_unique_keys_pivot_safe {"17153"}
    [("17153_trial_C01", [(1, 2)]), ("17153_trial_C02", [(3, 4)])] (by decide)

/-- C2: pivoting a long table built from N distinct-named series of one
common positive length M yields a wide table with exactly 2·N columns and M
rows whose column names (`{valueKind}_{cellName}`) are sorted ascending, and
the result is invariant under permuting the plotted series. -/
theorem C2_pivot_equal_lengths :
    ∀ (series : List (String × List (Int × Int))) (M : Nat),
      (series.map Prod.fst).Nodup → series ≠ [] → 0 < M →
      (∀ s ∈ series, s.2.length = M) →
      ∃ w, download_data (longTable series) = some w ∧
        w.colNames.length = 2 * series.length ∧
        w.rows.length = M ∧
        w.colNames.Sorted (· ≤ ·) ∧
        ∀ series₂, series₂.Perm series →
          download_data (longTable series₂) = download_data (longTable series) := by
  intro series M hnd hne hM hlen
  have hne' : ∀ s ∈ series, s.2 ≠ [] := by
    intro s hs h0
    have h := hlen s hs
    rw [h0] at h
    simp only [List.length_nil] at h
    omega
  refine ⟨mkWide (longTable series), download_data_eq _,
    mkWide_colNames_length hnd hne', ?_, mkWide_colNames_sorted _, ?_⟩
  · rw [mkWide_rows_length hnd, maxSeriesLen_const hne hlen]
  · intro series₂ hp
    have hnd₂ : (series₂.map Prod.fst).Nodup := ((hp.map Prod.fst).nodup_iff).mpr hnd
    have hne₂ : ∀ s ∈ series₂, s.2 ≠ [] := fun s hs => hne' s (hp.subset hs)
    rw [download_data_eq, download_data_eq, mkWide_perm hp hnd₂ hne₂]

/-- C2 witness: the pivot shape at two concrete one-point series. -/
theorem C2_witness :
    ∃ w, download_data (longTable [("a", [(1, 2)]), ("b", [(3, 4)])]) = some w ∧
      w.colNames.length =
        2 * ([("a", [(1, 2)]), ("b", [(3, 4)])] :
          List (String × List (Int × Int))).length ∧
      w.rows.length = 1 ∧
      w.colNames.Sorted (· ≤ ·) ∧
      ∀ series₂, series₂.Perm [("a", [(1, 2)]), ("b", [(3, 4)])] →
        download_data (longTable series₂) =
          download_data (longTable [("a", [(1, 2)]), ("b", [(3, 4)])]) :=
  C2_pivot_equal_lengths [("a", [(1, 2)]), ("b", [(3, 4)])] 1
    (by decide) (by decide) (by decide) (by decide)

/-- C3: pivoting a non-empty long table whose per-cell series have possibly
unequal (positive) lengths yields a wide table with one row per index up to
the longest series' length; within each cell the zero-based sequential index
in original order addresses that cell's points, and the cells of shorter
series are absent (`none`, pandas `NaN` — not zero-filled) beyond their own
length. -/
theorem C3_pivot_unequal_lengths :
    ∀ series : List (String × List (Int × Int)),
      (series.map Prod.fst).Nodup → series ≠ [] → (∀ s ∈ series, s.2 ≠ []) →
      ∃ w, download_data (longTable series) = some w ∧
        w.rows.length = maxSeriesLen series ∧
        (∀ s ∈ series, ∀ i < s.2.length, ∀ v ∈ valueKinds,
          w.cell i (compositeName (v, s.1)) =
            some (if v == "Re(Z)/Ohm" then (s.2.getD i (0, 0)).1
              else (s.2.getD i (0, 0)).2)) ∧
        (∀ s ∈ series, ∀ i, s.2.length ≤ i → ∀ v ∈ valueKinds,
          w.cell i (compositeName (v, s.1)) = none) := by
  intro series hnd hne0 hne
  refine ⟨mkWide (longTable series), download_data_eq _, mkWide_rows_length hnd,
    ?_, ?_⟩
  · intro s hs i hi v hv
    have h := @mkWide_cell series hnd hne s.1 s.2 hs v hv i
    rw [h, if_pos hi]
  · intro s hs i hi v hv
    have h := @mkWide_cell series hnd hne s.1 s.2 hs v hv i
    rw [h, if_neg (by omega)]

/-- C3 witness: the unequal-length pivot at two concrete series of lengths
2 and 1. -/
theorem C3_witness :
    ∃ w, download_data (longTable [("a", [(1, 2), (3, 4)]), ("b", [(5, 6)])]) =
        some w ∧
      w.rows.length =
        maxSeriesLen [("a", [(1, 2), (3, 4)]), ("b", [(5, 6)])] ∧
      (∀ s ∈ ([("a", [(1, 2), (3, 4)]), ("b", [(5, 6)])] :
          List (String × List (Int × Int))), ∀ i < s.2.length, ∀ v ∈ valueKinds,
        w.cell i (compositeName (v, s.1)) =
          some (if v == "Re(Z)/Ohm" then (s.2.getD i (0, 0)).1
            else (s.2.getD i (0, 0)).2)) ∧
      (∀ s ∈ ([("a", [(1, 2), (3, 4)]), ("b", [(5, 6)])] :
          List (String × List (Int × Int))), ∀ i, s.2.length ≤ i → ∀ v ∈ valueKinds,
        w.cell i (compositeName (v, s.1)) = none) :=
  C3_pivot_unequal_lengths [("a", [(1, 2), (3, 4)]), ("b", [(5, 6)])]
    (by decide) (by decide) (by decide)

end EIS
